import Mathlib

/-!
Verification development for the be-YAF knowledge-index pipeline.

Shallow embedding of the ingestion pipeline (scripts/ingest.ts), the
markdown/text chunker (core/textChunker.ts), and the retrieval engine
(api/projects/qa.service.ts).  Database tables are lists of rows; the
external collaborators (embedding gateway, completion model, git client,
JSON decoding of model output, SHA-256) are supplied through an
environment record whose fallible calls return Except, mirroring thrown
exceptions.  SQL transactions are modelled by snapshot semantics: the
transaction body runs in Except and an error restores the state that was
current at BEGIN, exactly as a ROLLBACK does.
-/

/-! ## Markdown text chunker (core/textChunker.ts, the revision that treats
headings of depth 1..3 as chunk boundaries) -/

/-- A node of the parsed markdown tree (mdast), as far as the chunker
inspects it: the chunker only looks at the node type tag and, for
headings, the depth. -/
inductive MdNode where
  | heading (depth : Nat) (text : String)
  | other (kind : String) (text : String)
deriving DecidableEq

/-- The chunk-boundary test of chunkByHeadings:
node.type is heading and node.depth is at most 3. -/
def isBoundaryHeading : MdNode → Bool
  | .heading d _ => d ≤ 3
  | .other _ _ => false

/-- node.type is heading (any depth); used by the fallback test. -/
def isHeadingNode : MdNode → Bool
  | .heading _ _ => true
  | .other _ _ => false

/-- One iteration of the forEach loop in chunkByHeadings: a boundary
heading flushes the pending chunk (if nonempty) and starts a new one;
any other node is appended to the pending chunk. -/
def chunkAccStep (acc : List (List MdNode) × List MdNode) (n : MdNode) :
    List (List MdNode) × List MdNode :=
  if isBoundaryHeading n then
    (if acc.2.isEmpty then acc.1 else acc.1 ++ [acc.2], [n])
  else
    (acc.1, acc.2 ++ [n])

/-- The flush after the forEach loop: add the last remaining chunk if
it is nonempty. -/
def finishChunks (acc : List (List MdNode) × List MdNode) : List (List MdNode) :=
  if acc.2.isEmpty then acc.1 else acc.1 ++ [acc.2]

/-- The heading-segmentation pass of chunkByHeadings: the forEach loop
followed by the final flush of the remaining chunk.  Works on the parsed
node list (tree.children); stringification and the paragraph fallback
are applied on top of this pass. -/
def splitByHeadings (nodes : List MdNode) : List (List MdNode) :=
  finishChunks (nodes.foldl chunkAccStep ([], []))

/-- Specification-side segmentation, written from the words of the spec:
each chunk consists of a first node followed by the run of non-boundary
nodes after it, and the next chunk starts at the next heading of depth
at most 3.  Content before the first such heading forms its own leading
chunk. -/
def segSpec (nodes : List MdNode) : List (List MdNode) :=
  match nodes with
  | [] => []
  | n :: rest =>
    (n :: rest.takeWhile (fun m => !isBoundaryHeading m)) ::
      segSpec (rest.dropWhile (fun m => !isBoundaryHeading m))
termination_by nodes.length
decreasing_by
  simp only [List.length_cons]
  exact Nat.lt_succ_of_le (List.Sublist.length_le (List.dropWhile_sublist _))

/-- Whitespace class of the JavaScript regexes used by the repository,
restricted to the ASCII characters that can occur in the modelled
strings. -/
def isJsSpace (c : Char) : Bool :=
  c == ' ' || c == '\t' || c == '\n' || c == '\r' ||
    c == Char.ofNat 11 || c == Char.ofNat 12

/-- JavaScript String.prototype.trim, over the modelled whitespace
class; character-list based so that proofs can evaluate it. -/
def jsTrim (s : String) : String :=
  String.mk (((s.toList.dropWhile isJsSpace).reverse.dropWhile isJsSpace).reverse)

/-- Split a character list at every occurrence of one separator
character, as String.prototype.split with a one-character separator. -/
def splitOnChar (sep : Char) : List Char → List (List Char)
  | [] => [[]]
  | c :: rest =>
    match splitOnChar sep rest with
    | [] => [[]]
    | piece :: pieces =>
      if c == sep then [] :: piece :: pieces else (c :: piece) :: pieces

/-- String.prototype.split with a one-character separator. -/
def strSplitOn (sep : Char) (s : String) : List String :=
  (splitOnChar sep s.toList).map String.mk

/-- String.prototype.toUpperCase on ASCII content. -/
def asciiUpper (s : String) : String := String.mk (s.toList.map Char.toUpper)

/-- Index of the last newline in a character run, or none. -/
def lastNewlineIdx (cs : List Char) : Option Nat :=
  (cs.reverse.findIdx? (fun c => c == '\n')).map (fun j => cs.length - 1 - j)

/-- Length of the separator matched at this position by the split regex
of chunkByParagraphs (newline, any whitespace, newline; the middle part
is greedy). -/
def sepLen (cs : List Char) : Option Nat :=
  match cs with
  | '\n' :: t => (lastNewlineIdx (t.takeWhile isJsSpace)).map (fun k => k + 2)
  | _ => none

/-- String.split on the blank-line regex: scans left to right, cutting a
piece at each leftmost separator match. -/
def splitBlankAux (cs : List Char) (cur : List Char) : List (List Char) :=
  match cs with
  | [] => [cur.reverse]
  | c :: rest =>
    match h : sepLen (c :: rest) with
    | some k => cur.reverse :: splitBlankAux ((c :: rest).drop k) []
    | none => splitBlankAux rest (c :: cur)
termination_by cs.length
decreasing_by
  · have h2 : 2 ≤ k := by
      unfold sepLen at h
      split at h
      · obtain ⟨j, _, hj⟩ := Option.map_eq_some'.mp h
        omega
      · exact absurd h (by simp)
    simp only [List.length_drop, List.length_cons]
    omega
  · simp

/-- chunkByParagraphs: split the content on blank lines, trim each piece
and discard pieces of length at most 20. -/
def chunkByParagraphs (content : String) : List String :=
  ((splitBlankAux content.toList []).map (fun cs => jsTrim (String.mk cs))).filter
    (fun c => c.length > 20)

/-- chunkByHeadings after parsing: stringify each heading-bounded chunk
with the supplied renderer (mdast-util-to-string is external), fall back
to paragraph chunking when only one chunk resulted and the source had
non-heading content, and otherwise drop whitespace-only chunks. -/
def chunkByHeadings (render : List MdNode → String) (nodes : List MdNode) : List String :=
  let chunks := (splitByHeadings nodes).map render
  if chunks.length == 1 && nodes.any (fun n => !isHeadingNode n) then
    chunkByParagraphs (chunks.headD "")
  else
    chunks.filter (fun c => !(jsTrim c == ""))

/-! ## The closes/fixes/resolves commit-message pattern (ingest.ts) -/

def isDigitCh (c : Char) : Bool := '0' ≤ c && c ≤ '9'

/-- Case-insensitive prefix test: the pattern letters are lowercase and
each subject character is lowercased before comparison (the regex i
flag). -/
def ciPrefix : List Char → List Char → Bool
  | [], _ => true
  | _ :: _, [] => false
  | k :: ks, c :: cs => k == c.toLower && ciPrefix ks cs

/-- Numeric value of a digit run, as parseInt with radix 10. -/
def digitsVal (ds : List Char) : Nat :=
  ds.foldl (fun a c => 10 * a + (c.toNat - '0'.toNat)) 0

/-- The three alternatives of the pattern. -/
def refKeywords : List (List Char) :=
  [['c','l','o','s','e','s'], ['f','i','x','e','s'],
   ['r','e','s','o','l','v','e','s']]

/-- Attempt to match closes/fixes/resolves, one or more whitespace, a
hash sign and one or more digits at the head of the character list,
returning the captured task number. -/
def matchRefAt (cs : List Char) : Option Nat :=
  match refKeywords.find? (fun kw => ciPrefix kw cs) with
  | none => none
  | some kw =>
    let rest := cs.drop kw.length
    let sp := rest.takeWhile isJsSpace
    if sp.isEmpty then none
    else
      match rest.drop sp.length with
      | '#' :: tl =>
        let ds := tl.takeWhile isDigitCh
        if ds.isEmpty then none else some (digitsVal ds)
      | _ => none

/-- Leftmost match of the pattern in the list, as a single call to
RegExp.exec returns. -/
def findRefIn : List Char → Option Nat
  | [] => none
  | c :: rest =>
    match matchRefAt (c :: rest) with
    | some n => some n
    | none => findRefIn rest

/-- taskRegex.exec(commit.message): the task number captured by the
first match of the closes/fixes/resolves pattern, if any. -/
def findTaskRef (msg : String) : Option Nat := findRefIn msg.toList

/-! ## Relational state (schema.sql), one list per table -/

/-- Row of indexed_files: id, project_id, path, content_hash, summary,
summary_embedding.  Vectors are represented by the pgvector text that
was inserted. -/
structure FileRow where
  id : Nat
  projectId : Nat
  path : String
  contentHash : String
  summary : String
  summaryEmbedding : String
deriving DecidableEq

/-- Row of code_chunks (the chunk row id is never read back). -/
structure ChunkRow where
  fileId : Nat
  chunkName : String
  chunkType : String
  content : String
  startLine : Nat
  endLine : Nat
  embedding : String
deriving DecidableEq

/-- Row of commits. -/
structure CommitRow where
  id : Nat
  projectId : Nat
  commitHash : String
  authorName : String
  authorEmail : String
  commitDate : Nat
  message : String
  embedding : String
deriving DecidableEq

/-- Row of commit_files. -/
structure CommitFileRow where
  commitId : Nat
  fileId : Nat
  changeType : String
deriving DecidableEq

/-- Row of tasks; task_number is drawn from a serial sequence. -/
structure TaskRow where
  projectId : Nat
  taskNumber : Nat
  title : String
  description : String
  status : String
  category : String
  embedding : String
  createdAt : Nat
  updatedAt : Nat
deriving DecidableEq

/-- Row of knowledge_notes. -/
structure KnowledgeNoteRow where
  id : Nat
  projectId : Nat
  noteSummary : String
  embedding : String
deriving DecidableEq

/-- Row of project_documents. -/
structure DocumentRow where
  id : Nat
  projectId : Nat
  fileName : String
deriving DecidableEq

/-- Row of document_chunks. -/
structure DocChunkRow where
  documentId : Nat
  content : String
  embedding : String
deriving DecidableEq

/-- The database: one list per table plus the serial sequences the code
reads back (indexed_files.id, commits.id, tasks.task_number). -/
structure DB where
  files : List FileRow
  chunks : List ChunkRow
  commits : List CommitRow
  commitFiles : List CommitFileRow
  tasks : List TaskRow
  knowledgeNotes : List KnowledgeNoteRow
  projectDocuments : List DocumentRow
  documentChunks : List DocChunkRow
  nextFileId : Nat
  nextCommitId : Nat
  nextTaskNumber : Nat
deriving DecidableEq

/-- A file on disk, as enumerated by glob: project-relative path and
utf-8 content. -/
structure DiskFile where
  path : String
  content : String
deriving DecidableEq

/-- A chunk produced by chunkCodeWithAST (core/chunker.ts). -/
structure ChunkSpec where
  name : String
  ctype : String
  content : String
  startLine : Nat
  endLine : Nat
deriving DecidableEq

/-- The destructured fields of the JSON object returned by the task
generation model call; a missing key destructures to none. -/
structure TaskFields where
  title : Option String
  category : Option String
  description : Option String
deriving DecidableEq

/-- A git log entry as returned by git.log (simple-git DefaultLogFields);
the date is an abstract timestamp. -/
structure CommitInfo where
  hash : String
  authorName : String
  authorEmail : String
  date : Nat
  message : String
deriving DecidableEq

/-- External collaborators of the ingestion pipeline.  Calls that the
source awaits inside a try block and that can throw return Except;
summarizeFile catches its own errors and always returns a string. -/
structure Env where
  hashFn : String → String
  summarize : String → String → String
  embed : String → Except String String
  chunkCode : String → Except String (List ChunkSpec)
  gitShowPatch : String → String
  gitShowNameStatus : String → String
  completeTask : String → String → Except String String
  parseTaskJson : String → Except String TaskFields
  now : Nat

/-! ## File sync engine (syncFiles in scripts/ingest.ts) -/

/-- The static extension denylist of ingest.ts. -/
def ignoredExtensions : List String :=
  [".lock", ".svg", ".png", ".jpg", ".jpeg", ".gif", ".ico"]

/-- The static filename denylist of ingest.ts. -/
def ignoredFilenames : List String :=
  ["package-lock.json", "yarn.lock", "pnpm-lock.yaml"]

/-- path.basename: the final path segment (trailing separators
ignored). -/
def basename (p : String) : String :=
  (((strSplitOn '/' p).filter (fun s => !(s == ""))).getLast?).getD ""

/-- path.extname: from the last dot of the basename, empty when the only
dot is the leading character or there is none. -/
def extname (p : String) : String :=
  let b := (basename p).toList
  match (b.reverse.findIdx? (fun c => c == '.')).map (fun j => b.length - 1 - j) with
  | some i => if i == 0 then "" else String.mk (b.drop i)
  | none => ""

/-- The filter applied to the glob result before the diff-and-reindex
loop: the gitignore matcher accepts the path and neither denylist
matches. -/
def indexableFile (accepts : String → Bool) (p : String) : Bool :=
  accepts p && !ignoredExtensions.contains (extname p)
    && !ignoredFilenames.contains (basename p)

/-- DELETE FROM indexed_files WHERE project_id = pid AND path = ANY(ps),
with the ON DELETE CASCADE of code_chunks.file_id. -/
def deleteFilesByPaths (pid : Nat) (ps : List String) (db : DB) : DB :=
  let doomedIds :=
    (db.files.filter (fun r => r.projectId == pid && ps.contains r.path)).map (·.id)
  { db with
    files := db.files.filter (fun r => !(r.projectId == pid && ps.contains r.path)),
    chunks := db.chunks.filter (fun c => !doomedIds.contains c.fileId) }

/-- INSERT INTO indexed_files ... RETURNING id. -/
def insertFile (pid : Nat) (p h s e : String) (db : DB) : DB × Nat :=
  ({ db with
      files := db.files ++ [⟨db.nextFileId, pid, p, h, s, e⟩],
      nextFileId := db.nextFileId + 1 }, db.nextFileId)

/-- INSERT INTO code_chunks. -/
def insertChunk (fid : Nat) (ch : ChunkSpec) (emb : String) (db : DB) : DB :=
  { db with
    chunks := db.chunks ++ [⟨fid, ch.name, ch.ctype, ch.content, ch.startLine, ch.endLine, emb⟩] }

/-- SELECT content_hash FROM indexed_files WHERE project_id AND path,
taking the first row if any. -/
def storedHash (db : DB) (pid : Nat) (p : String) : Option String :=
  ((db.files.filter (fun r => r.projectId == pid && r.path == p)).map (·.contentHash)).head?

/-- The chunk loop of the per-file transaction: embed each chunk and
insert its row, stopping at the first failure. -/
def insertChunksLoop (env : Env) (fid : Nat) : List ChunkSpec → DB → Except String DB
  | [], db => Except.ok db
  | ch :: rest, db =>
    match env.embed ch.content with
    | .ok ce => insertChunksLoop env fid rest (insertChunk fid ch ce db)
    | .error e => Except.error e

/-- The body of the per-file transaction: delete the existing row for
the path, summarize, embed the summary, insert the file row, chunk the
content and embed and insert each chunk. -/
def fileTransaction (env : Env) (pid : Nat) (f : DiskFile) (h : String) (db : DB) :
    Except String DB :=
  let db1 := deleteFilesByPaths pid [f.path] db
  let summary := env.summarize f.path f.content
  match env.embed summary with
  | .error e => Except.error e
  | .ok semb =>
    let r := insertFile pid f.path h summary semb db1
    match env.chunkCode f.content with
    | .error e => Except.error e
    | .ok chunks => insertChunksLoop env r.2 chunks r.1

/-- The chunk-embedding calls alone. -/
def chunkCallsOk (env : Env) : List ChunkSpec → Except String Unit
  | [] => Except.ok ()
  | ch :: rest =>
    match env.embed ch.content with
    | .ok _ => chunkCallsOk env rest
    | .error e => Except.error e

/-- Only the external calls of the per-file transaction, in source
order; the transaction fails exactly when one of these calls fails,
independently of the database state. -/
def fileCallsOk (env : Env) (f : DiskFile) : Except String Unit :=
  match env.embed (env.summarize f.path f.content) with
  | .error e => Except.error e
  | .ok _ =>
    match env.chunkCode f.content with
    | .error e => Except.error e
    | .ok chunks => chunkCallsOk env chunks

/-- Log line emitted when a file enters the transaction. -/
def procMsg (p : String) : String := "Processing changed file: " ++ p

/-- Log line emitted by the catch branch of the per-file transaction. -/
def failMsg (p e : String) : String := "Failed to process " ++ p ++ ": " ++ e

/-- The per-file step of the diff-and-reindex loop: skip whitespace-only
content, skip when the stored hash matches, otherwise run the
transaction, rolling back to the entry state on error. -/
def syncOneFile (env : Env) (pid : Nat) (f : DiskFile) (db : DB) : DB × List String :=
  if jsTrim f.content == "" then (db, [])
  else
    let h := env.hashFn f.content
    if storedHash db pid f.path == some h then (db, [])
    else
      match fileTransaction env pid f h db with
      | .ok db2 => (db2, [procMsg f.path])
      | .error e => (db, [procMsg f.path, failMsg f.path e])

/-- The diff-and-reindex loop over the filtered disk files. -/
def syncFilesLoop (env : Env) (pid : Nat) :
    List DiskFile → DB × List String → DB × List String
  | [], acc => acc
  | f :: rest, acc =>
    let r := syncOneFile env pid f acc.1
    syncFilesLoop env pid rest (r.1, acc.2 ++ r.2)

/-- syncFiles: prune stored paths that are gone from disk (a single
batch delete, skipped when empty), then diff and reindex every disk
file that survives the ignore policy. -/
def syncFiles (env : Env) (pid : Nat) (disk : List DiskFile) (accepts : String → Bool)
    (db : DB) : DB × List String :=
  let dbPaths := (db.files.filter (fun r => r.projectId == pid)).map (·.path)
  let diskPaths := disk.map (·.path)
  let pathsToDelete := dbPaths.filter (fun p => !diskPaths.contains p)
  let db1 := if pathsToDelete.isEmpty then db else deleteFilesByPaths pid pathsToDelete db
  let filesToIndex := disk.filter (fun f => indexableFile accepts f.path)
  syncFilesLoop env pid filesToIndex (db1, [])

/-! ## Git history sync engine (syncGitHistory in scripts/ingest.ts) -/

/-- SELECT commit_hash FROM commits WHERE project_id = pid. -/
def storedCommitHashes (db : DB) (pid : Nat) : List String :=
  (db.commits.filter (fun r => r.projectId == pid)).map (·.commitHash)

/-- INSERT INTO commits ... RETURNING id, enforcing the
UNIQUE (project_id, commit_hash) constraint of schema.sql. -/
def insertCommit (pid : Nat) (c : CommitInfo) (emb : String) (db : DB) :
    Except String (DB × Nat) :=
  if db.commits.any (fun r => r.projectId == pid && r.commitHash == c.hash) then
    Except.error "duplicate key value violates unique constraint on commits"
  else
    Except.ok
      ({ db with
          commits := db.commits ++
            [⟨db.nextCommitId, pid, c.hash, c.authorName, c.authorEmail, c.date,
              c.message, emb⟩],
          nextCommitId := db.nextCommitId + 1 }, db.nextCommitId)

/-- INSERT INTO commit_files, enforcing UNIQUE (commit_id, file_id). -/
def insertCommitFile (cid fid : Nat) (ct : String) (db : DB) : Except String DB :=
  if db.commitFiles.any (fun r => r.commitId == cid && r.fileId == fid) then
    Except.error "duplicate key value violates unique constraint on commit_files"
  else
    Except.ok { db with commitFiles := db.commitFiles ++ [⟨cid, fid, ct⟩] }

/-- Parse the name-status diff text: split into lines, drop blank lines,
split each line on tabs and keep (change type, path) when at least two
fields are present, both trimmed. -/
def parseNameStatus (s : String) : List (String × String) :=
  ((strSplitOn '\n' s).filter (fun l => !(jsTrim l == ""))).filterMap (fun l =>
    match strSplitOn '\t' l with
    | a :: b :: _ => some (jsTrim a, jsTrim b)
    | _ => none)

/-- SELECT id FROM indexed_files WHERE project_id AND path, first row. -/
def lookupFileId (db : DB) (pid : Nat) (p : String) : Option Nat :=
  (db.files.find? (fun r => r.projectId == pid && r.path == p)).map (·.id)

/-- UPDATE tasks SET status = done, updated_at = NOW()
WHERE project_id AND task_number AND status is not done. -/
def updateTasksDone (now pid n : Nat) (tasks : List TaskRow) : List TaskRow :=
  tasks.map (fun t =>
    if t.projectId == pid && t.taskNumber == n && t.status != "done" then
      { t with status := "done", updatedAt := now }
    else t)

/-- The JavaScript falsiness test applied to a destructured string
field: absent, or present but empty. -/
def fieldMissing : Option String → Bool
  | none => true
  | some s => s == ""

/-- The model-call part of generateTaskFromCommit: request the
completion, treat an empty or NULL response as the trivial sentinel,
decode the JSON, reject missing fields, embed the synthesized content.
Returns none for the trivial sentinel, the task data on success, and an
error for everything the surrounding catch block would log. -/
def taskGenOutcome (env : Env) (c : CommitInfo) (diff : String) :
    Except String (Option (String × String × String × String)) :=
  match env.completeTask c.message diff with
  | .error e => Except.error e
  | .ok raw =>
    if jsTrim raw == "" || asciiUpper (jsTrim raw) == "NULL" then Except.ok none
    else
      match env.parseTaskJson (jsTrim raw) with
      | .error e => Except.error e
      | .ok fields =>
        if fieldMissing fields.title || fieldMissing fields.category ||
            fieldMissing fields.description then
          Except.error "AI response was missing title, category, or description."
        else
          let title := fields.title.getD ""
          let category := fields.category.getD ""
          let description := fields.description.getD ""
          let contentToEmbed :=
            "[" ++ category ++ "] " ++ title ++ "\n\n" ++ description ++
              "\n\nCompleted in commit: " ++ c.hash
          match env.embed contentToEmbed with
          | .error e => Except.error e
          | .ok emb => Except.ok (some (title, category, description, emb))

/-- INSERT INTO tasks with status done and created_at = updated_at =
the commit date; task_number comes from the serial sequence. -/
def insertTask (pid : Nat) (title desc category emb : String) (date : Nat) (db : DB) : DB :=
  { db with
    tasks := db.tasks ++
      [⟨pid, db.nextTaskNumber, title, desc, "done", category, emb, date, date⟩],
    nextTaskNumber := db.nextTaskNumber + 1 }

/-- generateTaskFromCommit: fetch the full patch; an absent or
below-threshold patch is trivial; otherwise run the model call, whose
errors are caught and logged here so they never reach the caller. -/
def generateTaskFromCommit (env : Env) (pid : Nat) (c : CommitInfo) (db : DB) :
    DB × List String :=
  let diff := env.gitShowPatch c.hash
  if diff == "" || (jsTrim diff).length < 50 then
    (db, ["Commit " ++ c.hash.take 7 ++ " is trivial, skipping task generation."])
  else
    match taskGenOutcome env c diff with
    | .error e =>
      (db, ["Failed to generate task for commit " ++ c.hash.take 7 ++ ": " ++ e])
    | .ok none =>
      (db, ["AI determined commit is trivial, skipping task generation."])
    | .ok (some (title, category, description, emb)) =>
      (insertTask pid title description category emb c.date db,
       ["AI generated task: [" ++ category ++ "] " ++ title,
        "Created and closed retrospective task for commit " ++ c.hash.take 7 ++ "."])

/-- The changed-files loop of the per-commit transaction: for every
(change type, path) line whose path matches a currently indexed file,
insert a commit_files link; a thrown insert aborts the loop. -/
def linkChangedFiles (pid cid : Nat) : List (String × String) → DB → Except String DB
  | [], db => Except.ok db
  | pr :: rest, db =>
    match lookupFileId db pid pr.2 with
    | some fid =>
      match insertCommitFile cid fid pr.1 db with
      | .ok d2 => linkChangedFiles pid cid rest d2
      | .error e => Except.error e
    | none => linkChangedFiles pid cid rest db

/-- The body of the per-commit transaction: embed the message, insert
the commit row, link every changed path that matches an indexed file,
then either close the referenced task or run retrospective task
generation. -/
def processCommitBody (env : Env) (pid : Nat) (c : CommitInfo) (db : DB) :
    Except String (DB × List String) :=
  match env.embed c.message with
  | .error e => Except.error e
  | .ok emb =>
    match insertCommit pid c emb db with
    | .error e => Except.error e
    | .ok (db1, cid) =>
      match linkChangedFiles pid cid (parseNameStatus (env.gitShowNameStatus c.hash)) db1 with
      | .error e => Except.error e
      | .ok db2 =>
        match findTaskRef c.message with
        | some n =>
          Except.ok ({ db2 with tasks := updateTasksDone env.now pid n db2.tasks },
            ["Found reference to close task #" ++ toString n ++ "."])
        | none =>
          let r := generateTaskFromCommit env pid c db2
          Except.ok (r.1, r.2)

/-- The per-commit step: run the transaction body, rolling back to the
entry state and logging on error. -/
def processCommit (env : Env) (pid : Nat) (c : CommitInfo) (db : DB) : DB × List String :=
  match processCommitBody env pid c db with
  | .ok r => r
  | .error e => (db, ["Failed to process commit " ++ c.hash ++ ": " ++ e])

/-- The loop over the new commits. -/
def syncGitLoop (env : Env) (pid : Nat) :
    List CommitInfo → DB × List String → DB × List String
  | [], acc => acc
  | c :: rest, acc =>
    let r := processCommit env pid c acc.1
    syncGitLoop env pid rest (r.1, acc.2 ++ r.2)

/-- syncGitHistory: load the stored hashes, reverse the log to
oldest-first order, drop already-stored commits, and process the rest;
an empty remainder returns immediately. -/
def syncGitHistory (env : Env) (pid : Nat) (log : List CommitInfo) (db : DB) :
    DB × List String :=
  let existing := storedCommitHashes db pid
  let allCommits := log.reverse
  let newCommits := allCommits.filter (fun c => !existing.contains c.hash)
  if newCommits.isEmpty then (db, ["Git history is already up-to-date."])
  else syncGitLoop env pid newCommits (db, [])

/-! ## Retrieval engine (getAnswerStream in api/projects/qa.service.ts) -/

/-- Stable ascending insertion for the distance ordering: the new
element goes after every element whose key is not larger. -/
def insertSorted (key : α → Nat) (x : α) : List α → List α
  | [] => [x]
  | y :: ys => if key y ≤ key x then y :: insertSorted key x ys else x :: y :: ys

/-- Stable sort by ascending key. -/
def sortByKey (key : α → Nat) (l : List α) : List α :=
  l.foldr (insertSorted key) []

/-- ORDER BY embedding distance LIMIT k: the k rows of smallest key. -/
def topK (key : α → Nat) (k : Nat) (l : List α) : List α :=
  (sortByKey key l).take k

/-- SELECT ... FROM knowledge_notes WHERE project_id ORDER BY embedding
distance LIMIT 2. -/
def knowledgeQuery (db : DB) (pid : Nat) (dist : String → Nat) : List KnowledgeNoteRow :=
  topK (fun r => dist r.embedding) 2 (db.knowledgeNotes.filter (fun r => r.projectId == pid))

/-- SELECT ... FROM tasks WHERE project_id ORDER BY distance LIMIT 3. -/
def tasksQuery (db : DB) (pid : Nat) (dist : String → Nat) : List TaskRow :=
  topK (fun r => dist r.embedding) 3 (db.tasks.filter (fun r => r.projectId == pid))

/-- SELECT ... FROM commits WHERE project_id ORDER BY distance LIMIT 3. -/
def commitsQuery (db : DB) (pid : Nat) (dist : String → Nat) : List CommitRow :=
  topK (fun r => dist r.embedding) 3 (db.commits.filter (fun r => r.projectId == pid))

/-- The document_chunks JOIN project_documents query: every chunk paired
with its document row, restricted to the project, ORDER BY chunk
distance LIMIT 3; each result keeps (file name, content, embedding). -/
def docChunksQuery (db : DB) (pid : Nat) (dist : String → Nat) :
    List (String × String × String) :=
  let joined := db.documentChunks.filterMap (fun dc =>
    match db.projectDocuments.find? (fun d => d.id == dc.documentId) with
    | some d =>
      if d.projectId == pid then some (d.fileName, dc.content, dc.embedding) else none
    | none => none)
  topK (fun r => dist r.2.2) 3 joined

/-- Stage one of code retrieval: SELECT id, path FROM indexed_files
WHERE project_id ORDER BY summary distance LIMIT 5. -/
def filesQuery (db : DB) (pid : Nat) (dist : String → Nat) : List FileRow :=
  topK (fun r => dist r.summaryEmbedding) 5 (db.files.filter (fun r => r.projectId == pid))

/-- Stage two: SELECT ... FROM code_chunks WHERE file_id = ANY(candidate
ids) ORDER BY distance LIMIT 10. -/
def codeChunksQuery (db : DB) (pid : Nat) (dist : String → Nat) : List ChunkRow :=
  let ids := (filesQuery db pid dist).map (·.id)
  topK (fun c => dist c.embedding) 10 (db.chunks.filter (fun c => ids.contains c.fileId))

/-- A provenance record pushed to the sources array; ids are rendered to
strings as the serialized payload does. -/
structure Source where
  stype : String
  sid : String
  title : String
deriving DecidableEq

/-- First-occurrence deduplication, with the list of keys already seen:
the iteration order and survivor choice of both a JS Map keyed by the
value used here and a JS Set. -/
def dedupByKeyAux (key : α → String) (seen : List String) : List α → List α
  | [] => []
  | x :: xs =>
    if seen.contains (key x) then dedupByKeyAux key seen xs
    else x :: dedupByKeyAux key (key x :: seen) xs

/-- First-occurrence deduplication by key. -/
def dedupByKey (key : α → String) (l : List α) : List α :=
  dedupByKeyAux key [] l

/-- First line of a commit message (message.split newline, index 0). -/
def firstLine (s : String) : String := ((strSplitOn '\n' s).head?).getD ""

/-- The sources array assembled by getAnswerStream, in push order:
knowledge notes, tasks, commits (identified by the 7-character hash
prefix), documents deduplicated by file name, and code deduplicated by
file path (paths resolved through the stage-one candidate list, empty
lookups dropped). -/
def buildSources (db : DB) (pid : Nat) (dist : String → Nat) : List Source :=
  let ks := (knowledgeQuery db pid dist).map
    (fun n => Source.mk "knowledge" (toString n.id) n.noteSummary)
  let ts := (tasksQuery db pid dist).map
    (fun t => Source.mk "task" (toString t.taskNumber)
      ("#" ++ toString t.taskNumber ++ ": " ++ t.title))
  let cs := (commitsQuery db pid dist).map
    (fun c => Source.mk "commit" (c.commitHash.take 7)
      (c.commitHash.take 7 ++ ": " ++ firstLine c.message))
  let ds := (dedupByKey (fun r => r.1) (docChunksQuery db pid dist)).map
    (fun r => Source.mk "document" r.1 r.1)
  let rf := filesQuery db pid dist
  let paths := dedupByKey (fun p => p)
    ((codeChunksQuery db pid dist).filterMap (fun c =>
      match (rf.find? (fun f => f.id == c.fileId)).map (·.path) with
      | some p => if p.isEmpty then none else some p
      | none => none))
  let codeSrcs := paths.map (fun p => Source.mk "code" p p)
  ks ++ ts ++ cs ++ ds ++ codeSrcs

/-- The (type, id) keys of a source list. -/
def sourceKeys (l : List Source) : List (String × String) :=
  l.map (fun s => (s.stype, s.sid))

/-! ## Views and well-formedness used by the theorems -/

/-- Everything the database stores for one (project, path): its
indexed_files rows and the code_chunks rows attached to them. -/
def fileView (db : DB) (pid : Nat) (p : String) : List FileRow × List ChunkRow :=
  let rs := db.files.filter (fun r => r.projectId == pid && r.path == p)
  (rs, db.chunks.filter (fun c => (rs.map (·.id)).contains c.fileId))

/-- Well-formedness of the file tables that the serial sequence
guarantees: every stored id is below the sequence value and ids are
unique. -/
def FilesWF (db : DB) : Prop :=
  (∀ r ∈ db.files, r.id < db.nextFileId) ∧ (db.files.map (·.id)).Nodup

/-- Well-formedness of the commit tables: ids below the sequence value,
also for the commit ids referenced by commit_files. -/
def CommitsWF (db : DB) : Prop :=
  (∀ r ∈ db.commits, r.id < db.nextCommitId) ∧
    (∀ cf ∈ db.commitFiles, cf.commitId < db.nextCommitId)

/-- The commits rows stored for one (project, hash). -/
def commitRowsFor (db : DB) (pid : Nat) (h : String) : List CommitRow :=
  db.commits.filter (fun r => r.projectId == pid && r.commitHash == h)

/-- The retrospective-task data a commit would produce, if any: none
when the patch is absent or trivial, the model declines or errs, the
JSON fails to decode or lacks a field, or the task embedding fails. -/
def taskGenProduces (env : Env) (c : CommitInfo) :
    Option (String × String × String × String) :=
  let diff := env.gitShowPatch c.hash
  if diff == "" || (jsTrim diff).length < 50 then none
  else
    match taskGenOutcome env c diff with
    | .ok (some x) => some x
    | _ => none

/-! ## Concrete fixtures used by witnesses and counterexamples -/

/-- Distance function that ranks every embedding equally. -/
def dist0 : String → Nat := fun _ => 0

/-- Two commits of one project whose hashes share a 7-character prefix
but differ afterwards; allowed by UNIQUE (project_id, commit_hash). -/
def dbPrefixClash : DB :=
  { files := [], chunks := [],
    commits :=
      [⟨1, 1, "aaaaaaab", "ann", "a@x", 5, "first", "e1"⟩,
       ⟨2, 1, "aaaaaaac", "bob", "b@x", 6, "second", "e2"⟩],
    commitFiles := [], tasks := [], knowledgeNotes := [],
    projectDocuments := [], documentChunks := [],
    nextFileId := 1, nextCommitId := 3, nextTaskNumber := 1 }

/-- One indexed file with one chunk, for the retrieval witness. -/
def dbOneChunk : DB :=
  { files := [⟨10, 1, "a.ts", "h", "s", "e"⟩],
    chunks := [⟨10, "f", "function", "body", 1, 2, "e2"⟩],
    commits := [], commitFiles := [], tasks := [], knowledgeNotes := [],
    projectDocuments := [], documentChunks := [],
    nextFileId := 11, nextCommitId := 1, nextTaskNumber := 1 }

/-- The chunk stored in dbOneChunk. -/
def chunkOfDbOneChunk : ChunkRow := ⟨10, "f", "function", "body", 1, 2, "e2"⟩

/-- A database with one row in every retrievable table (commit hash
prefixes distinct), for the provenance witness. -/
def dbRich : DB :=
  { files := [⟨10, 1, "a.ts", "h", "s", "e"⟩],
    chunks := [⟨10, "f", "function", "body", 1, 2, "e2"⟩],
    commits := [⟨1, 1, "aaaaaaab", "ann", "a@x", 5, "first", "e3"⟩,
                ⟨2, 1, "bbbbbbbc", "bob", "b@x", 6, "second", "e4"⟩],
    commitFiles := [], tasks := [⟨1, 4, "t", "d", "open", "chore", "e5", 1, 1⟩],
    knowledgeNotes := [⟨7, 1, "note", "e6"⟩],
    projectDocuments := [⟨3, 1, "doc.docx"⟩],
    documentChunks := [⟨3, "para", "e7"⟩, ⟨3, "para2", "e8"⟩],
    nextFileId := 11, nextCommitId := 3, nextTaskNumber := 5 }

/-- A benign environment for witnesses: embeddings succeed, the code
chunker returns no chunks, git returns empty patches and diffs, the
model returns an empty response. -/
def envOK : Env :=
  { hashFn := fun s => s,
    summarize := fun _ _ => "sum",
    embed := fun s => Except.ok ("E" ++ s),
    chunkCode := fun _ => Except.ok [],
    gitShowPatch := fun _ => "",
    gitShowNameStatus := fun _ => "",
    completeTask := fun _ _ => Except.ok "",
    parseTaskJson := fun _ => Except.error "parse",
    now := 99 }

/-- A commit whose message references two tasks. -/
def commitCloses12 : CommitInfo :=
  ⟨"deadbee1", "ann", "a@x", 7, "closes #1 and fixes #2"⟩

/-- A commit without any task reference. -/
def commitNoRef : CommitInfo := ⟨"cafebab2", "ann", "a@x", 8, "tweak readme"⟩

/-- Two open tasks of project 1. -/
def dbTwoTasks : DB :=
  { files := [], chunks := [], commits := [], commitFiles := [],
    tasks := [⟨1, 1, "one", "d", "open", "c", "e", 0, 0⟩,
              ⟨1, 2, "two", "d", "open", "c", "e", 0, 0⟩],
    knowledgeNotes := [], projectDocuments := [], documentChunks := [],
    nextFileId := 1, nextCommitId := 1, nextTaskNumber := 3 }

/-- The state after processing commitCloses12 against dbTwoTasks. -/
def dbAfterCloses12 : DB :=
  { files := [], chunks := [],
    commits := [⟨1, 1, "deadbee1", "ann", "a@x", 7, "closes #1 and fixes #2",
      "Ecloses #1 and fixes #2"⟩],
    commitFiles := [],
    tasks := [⟨1, 1, "one", "d", "done", "c", "e", 0, 99⟩,
              ⟨1, 2, "two", "d", "open", "c", "e", 0, 0⟩],
    knowledgeNotes := [], projectDocuments := [], documentChunks := [],
    nextFileId := 1, nextCommitId := 2, nextTaskNumber := 3 }

/-- The state after processing commitNoRef against dbTwoTasks. -/
def dbAfterNoRef : DB :=
  { files := [], chunks := [],
    commits := [⟨1, 1, "cafebab2", "ann", "a@x", 8, "tweak readme",
      "Etweak readme"⟩],
    commitFiles := [],
    tasks := [⟨1, 1, "one", "d", "open", "c", "e", 0, 0⟩,
              ⟨1, 2, "two", "d", "open", "c", "e", 0, 0⟩],
    knowledgeNotes := [], projectDocuments := [], documentChunks := [],
    nextFileId := 1, nextCommitId := 2, nextTaskNumber := 3 }

/-- A gitignore matcher that accepts everything. -/
def acceptAll : String → Bool := fun _ => true

/-- One disk file whose stored hash (under the identity hash of envOK)
matches its content. -/
def diskOneFile : List DiskFile := [⟨"a.ts", "x"⟩]

/-- The matching database state for diskOneFile. -/
def dbOneSynced : DB :=
  { files := [⟨1, 1, "a.ts", "x", "s", "e"⟩],
    chunks := [], commits := [], commitFiles := [], tasks := [],
    knowledgeNotes := [], projectDocuments := [], documentChunks := [],
    nextFileId := 2, nextCommitId := 1, nextTaskNumber := 1 }

/-- The environment whose embedding gateway always throws. -/
def envFail : Env := { envOK with embed := fun _ => Except.error "boom" }

/-- A stored row whose hash no longer matches the disk content. -/
def dbStale : DB :=
  { files := [⟨1, 1, "a.ts", "old", "s", "e"⟩],
    chunks := [], commits := [], commitFiles := [], tasks := [],
    knowledgeNotes := [], projectDocuments := [], documentChunks := [],
    nextFileId := 2, nextCommitId := 1, nextTaskNumber := 1 }

/-! ## Theorems -/

theorem segSpec_nil : segSpec [] = [] := by
  rw [segSpec.eq_def]

theorem segSpec_cons (n : MdNode) (rest : List MdNode) :
    segSpec (n :: rest) =
      (n :: rest.takeWhile (fun m => !isBoundaryHeading m)) ::
        segSpec (rest.dropWhile (fun m => !isBoundaryHeading m)) := by
  rw [segSpec.eq_def]

theorem foldChunks_eq_segSpec (nodes : List MdNode) :
    ∀ (chunks : List (List MdNode)) (cur : List MdNode), cur ≠ [] →
      finishChunks (nodes.foldl chunkAccStep (chunks, cur)) =
        chunks ++ (cur ++ nodes.takeWhile (fun m => !isBoundaryHeading m)) ::
          segSpec (nodes.dropWhile (fun m => !isBoundaryHeading m)) := by
  induction nodes with
  | nil =>
    intro chunks cur hcur
    simp only [List.foldl_nil, List.takeWhile_nil, List.dropWhile_nil, segSpec_nil]
    simp [finishChunks, hcur]
  | cons n rest ih =>
    intro chunks cur hcur
    rw [List.foldl_cons]
    by_cases hb : isBoundaryHeading n
    · have hstep : chunkAccStep (chunks, cur) n = (chunks ++ [cur], [n]) := by
        simp [chunkAccStep, hb, hcur]
      rw [hstep, ih (chunks ++ [cur]) [n] (by simp)]
      simp [List.takeWhile_cons, List.dropWhile_cons, hb, segSpec_cons]
    · have hstep : chunkAccStep (chunks, cur) n = (chunks, cur ++ [n]) := by
        simp [chunkAccStep, hb]
      rw [hstep, ih chunks (cur ++ [n]) (by simp)]
      simp [List.takeWhile_cons, List.dropWhile_cons, hb]

theorem segSpec_flatten (nodes : List MdNode) : (segSpec nodes).flatten = nodes := by
  induction nodes using segSpec.induct with
  | case1 => rw [segSpec_nil]; rfl
  | case2 n rest ih =>
    rw [segSpec_cons, List.flatten_cons, ih]
    simp only [List.cons_append, List.takeWhile_append_dropWhile]

/-- C5: in the text chunker, the heading-segmentation pass of
chunkByHeadings coincides with the specified segmentation: every
heading of depth at most 3 starts a new chunk, non-heading nodes
accumulate into the chunk of the heading preceding them, content before
the first such heading forms its own leading chunk, and the chunks
concatenate back to the whole parsed node list in order. -/
theorem chunker_heading_boundaries (nodes : List MdNode) :
    splitByHeadings nodes = segSpec nodes ∧ (splitByHeadings nodes).flatten = nodes := by
  have h : splitByHeadings nodes = segSpec nodes := by
    cases nodes with
    | nil => rw [segSpec_nil]; rfl
    | cons n rest =>
      have hstep : chunkAccStep ([], []) n = ([], [n]) := by
        by_cases hb : isBoundaryHeading n <;> simp [chunkAccStep, hb]
      rw [splitByHeadings, List.foldl_cons, hstep,
        foldChunks_eq_segSpec rest [] [n] (by simp), segSpec_cons]
      simp
  exact ⟨h, by rw [h]; exact segSpec_flatten nodes⟩

theorem insertSorted_perm (key : α → Nat) (x : α) (l : List α) :
    List.Perm (insertSorted key x l) (x :: l) := by
  induction l with
  | nil => exact List.Perm.refl _
  | cons y ys ih =>
    by_cases h : key y ≤ key x
    · simp only [insertSorted, h, if_true]
      exact (ih.cons y).trans (List.Perm.swap x y ys)
    · simp only [insertSorted, h, if_false]
      exact List.Perm.refl _

theorem sortByKey_perm (key : α → Nat) (l : List α) : List.Perm (sortByKey key l) l := by
  induction l with
  | nil => exact List.Perm.refl _
  | cons x xs ih =>
    exact (insertSorted_perm key x (sortByKey key xs)).trans (ih.cons x)

theorem mem_topK {key : α → Nat} {k : Nat} {y : α} {l : List α}
    (h : y ∈ topK key k l) : y ∈ l :=
  (sortByKey_perm key l).mem_iff.mp (List.mem_of_mem_take h)

theorem topK_length_le (key : α → Nat) (k : Nat) (l : List α) :
    (topK key k l).length ≤ k :=
  List.length_take_le _ _

/-- C6: two-stage code retrieval stays inside the candidate set: the
stage-one file query returns at most 5 files, the stage-two chunk query
returns at most 10 chunks, and every returned chunk belongs to one of
the stage-one candidate files. -/
theorem twoStage_code_retrieval (db : DB) (pid : Nat) (dist : String → Nat) :
    (filesQuery db pid dist).length ≤ 5 ∧
    (codeChunksQuery db pid dist).length ≤ 10 ∧
    ∀ c ∈ codeChunksQuery db pid dist, ∃ f ∈ filesQuery db pid dist, c.fileId = f.id := by
  refine ⟨topK_length_le _ _ _, topK_length_le _ _ _, ?_⟩
  intro c hc
  have hc2 : c ∈ db.chunks.filter
      (fun ch => ((filesQuery db pid dist).map (·.id)).contains ch.fileId) := by
    simpa only [codeChunksQuery] using mem_topK hc
  have hcon := (List.mem_filter.mp hc2).2
  have hmem : c.fileId ∈ (filesQuery db pid dist).map (·.id) := by
    simpa using hcon
  obtain ⟨f, hf, hfid⟩ := List.mem_map.mp hmem
  exact ⟨f, hf, hfid.symm⟩

/-- Witness for C6 at a concrete database. -/
theorem twoStage_code_retrieval_witness :
    chunkOfDbOneChunk ∈ codeChunksQuery dbOneChunk 1 dist0 ∧
      ∃ f ∈ filesQuery dbOneChunk 1 dist0, chunkOfDbOneChunk.fileId = f.id := by
  refine ⟨by decide, ?_⟩
  exact (twoStage_code_retrieval dbOneChunk 1 dist0).2.2 chunkOfDbOneChunk (by decide)

theorem topK_map_nodup (key : α → Nat) (k : Nat) (l : List α) (g : α → β)
    (h : (l.map g).Nodup) : ((topK key k l).map g).Nodup := by
  have hperm : List.Perm ((sortByKey key l).map g) (l.map g) :=
    (sortByKey_perm key l).map g
  have hs : ((sortByKey key l).map g).Nodup := hperm.nodup_iff.mpr h
  rw [topK, List.map_take]
  exact List.Nodup.sublist (List.take_sublist _ _) hs

theorem mem_dedupByKeyAux (key : α → String) :
    ∀ (l : List α) (seen : List String), ∀ y ∈ dedupByKeyAux key seen l, y ∈ l := by
  intro l
  induction l with
  | nil => intro seen y hy; simp [dedupByKeyAux] at hy
  | cons x xs ih =>
    intro seen y hy
    rw [dedupByKeyAux] at hy
    by_cases hc : seen.contains (key x)
    · rw [if_pos hc] at hy
      exact List.mem_cons_of_mem _ (ih seen y hy)
    · rw [if_neg hc] at hy
      rcases List.mem_cons.mp hy with rfl | hy2
      · exact List.mem_cons_self _ _
      · exact List.mem_cons_of_mem _ (ih _ y hy2)

theorem mem_dedupByKey (key : α → String) :
    ∀ (l : List α), ∀ y ∈ dedupByKey key l, y ∈ l := by
  intro l y hy
  exact mem_dedupByKeyAux key l [] y hy

theorem dedupByKeyAux_keys_nodup (key : α → String) :
    ∀ (l : List α) (seen : List String),
      ((dedupByKeyAux key seen l).map key).Nodup ∧
        ∀ s ∈ (dedupByKeyAux key seen l).map key, ¬ s ∈ seen := by
  intro l
  induction l with
  | nil => intro seen; simp [dedupByKeyAux]
  | cons x xs ih =>
    intro seen
    rw [dedupByKeyAux]
    by_cases hc : seen.contains (key x)
    · rw [if_pos hc]
      exact ih seen
    · rw [if_neg hc]
      obtain ⟨hnd, hni⟩ := ih (key x :: seen)
      have hx : ¬ key x ∈ seen := by
        intro hmem
        exact hc (List.elem_eq_true_of_mem hmem)
      refine ⟨?_, ?_⟩
      · simp only [List.map_cons, List.nodup_cons]
        refine ⟨?_, hnd⟩
        intro hmem
        exact hni (key x) hmem (List.mem_cons_self _ _)
      · intro s hs hsseen
        simp only [List.map_cons] at hs
        rcases List.mem_cons.mp hs with rfl | hs2
        · exact hx hsseen
        · exact hni s hs2 (List.mem_cons_of_mem _ hsseen)

theorem dedupByKey_keys_nodup (key : α → String) (l : List α) :
    ((dedupByKey key l).map key).Nodup :=
  (dedupByKeyAux_keys_nodup key l []).1

theorem disjoint_of_fst_ne {a b : String} (hab : a ≠ b)
    {l1 l2 : List (String × String)}
    (h1 : ∀ x ∈ l1, x.1 = a) (h2 : ∀ x ∈ l2, x.1 = b) : l1.Disjoint l2 := by
  intro x hx1 hx2
  exact hab ((h1 x hx1).symm.trans (h2 x hx2))

theorem const_pairs_nodup (c : String) (l : List String) (h : l.Nodup) :
    (l.map (fun s => (c, s))).Nodup := by
  refine h.map ?_
  intro a b hab
  simpa using hab

/-- C7 counterexample: two retrieved commits of the same project whose
hashes agree on the first 7 characters produce two provenance records
with the same (type, id) pair, so the source list has duplicate keys. -/
theorem sources_dup_commit_prefix :
    ¬ (sourceKeys (buildSources dbPrefixClash 1 dist0)).Nodup := by decide

/-- C7 amended: the provenance list has no duplicate (type, id) pairs
provided no two stored commits of the project share a 7-character hash
prefix (commit ids are truncated to 7 characters); code sources are
deduplicated by file path, documents by file name, and knowledge-note
and task keys are distinct whenever their stored ids are. -/
theorem sources_no_dup_keys (db : DB) (pid : Nat) (dist : String → Nat)
    (hkn : ((db.knowledgeNotes.filter (fun r => r.projectId == pid)).map
        (fun r => toString r.id)).Nodup)
    (htk : ((db.tasks.filter (fun r => r.projectId == pid)).map
        (fun t => toString t.taskNumber)).Nodup)
    (hcm : ((db.commits.filter (fun r => r.projectId == pid)).map
        (fun r => r.commitHash.take 7)).Nodup) :
    (sourceKeys (buildSources db pid dist)).Nodup := by
  have hksN : ((knowledgeQuery db pid dist).map (fun r => toString r.id)).Nodup :=
    topK_map_nodup _ _ _ _ hkn
  have htsN : ((tasksQuery db pid dist).map (fun t => toString t.taskNumber)).Nodup :=
    topK_map_nodup _ _ _ _ htk
  have hcsN : ((commitsQuery db pid dist).map (fun r => r.commitHash.take 7)).Nodup :=
    topK_map_nodup _ _ _ _ hcm
  simp only [buildSources, sourceKeys, List.map_append, List.map_map]
  have hk1 : ∀ x ∈ (knowledgeQuery db pid dist).map
      ((fun s => (s.stype, s.sid)) ∘ fun n => Source.mk "knowledge" (toString n.id) n.noteSummary),
      x.1 = "knowledge" := by
    intro x hx; obtain ⟨r, _, rfl⟩ := List.mem_map.mp hx; rfl
  have hk2 : ∀ x ∈ (tasksQuery db pid dist).map
      ((fun s => (s.stype, s.sid)) ∘ fun t => Source.mk "task" (toString t.taskNumber)
        ("#" ++ toString t.taskNumber ++ ": " ++ t.title)),
      x.1 = "task" := by
    intro x hx; obtain ⟨r, _, rfl⟩ := List.mem_map.mp hx; rfl
  have hk3 : ∀ x ∈ (commitsQuery db pid dist).map
      ((fun s => (s.stype, s.sid)) ∘ fun c => Source.mk "commit" (c.commitHash.take 7)
        (c.commitHash.take 7 ++ ": " ++ firstLine c.message)),
      x.1 = "commit" := by
    intro x hx; obtain ⟨r, _, rfl⟩ := List.mem_map.mp hx; rfl
  have hk4 : ∀ x ∈ (dedupByKey (fun r => r.1) (docChunksQuery db pid dist)).map
      ((fun s => (s.stype, s.sid)) ∘ fun r => Source.mk "document" r.1 r.1),
      x.1 = "document" := by
    intro x hx; obtain ⟨r, _, rfl⟩ := List.mem_map.mp hx; rfl
  have hk5 : ∀ x ∈ (dedupByKey (fun p => p)
        ((codeChunksQuery db pid dist).filterMap (fun c =>
          match ((filesQuery db pid dist).find? (fun f => f.id == c.fileId)).map (·.path) with
          | some p => if p.isEmpty then none else some p
          | none => none))).map
      ((fun s => (s.stype, s.sid)) ∘ fun p => Source.mk "code" p p),
      x.1 = "code" := by
    intro x hx; obtain ⟨r, _, rfl⟩ := List.mem_map.mp hx; rfl
  have n1 : ((knowledgeQuery db pid dist).map
      ((fun s => (s.stype, s.sid)) ∘ fun n => Source.mk "knowledge" (toString n.id) n.noteSummary)).Nodup := by
    have : ((knowledgeQuery db pid dist).map
        ((fun s => (s.stype, s.sid)) ∘ fun n => Source.mk "knowledge" (toString n.id) n.noteSummary)) =
        ((knowledgeQuery db pid dist).map (fun r => toString r.id)).map
          (fun s => ("knowledge", s)) := by
      simp [List.map_map]
    rw [this]
    exact const_pairs_nodup _ _ hksN
  have n2 : ((tasksQuery db pid dist).map
      ((fun s => (s.stype, s.sid)) ∘ fun t => Source.mk "task" (toString t.taskNumber)
        ("#" ++ toString t.taskNumber ++ ": " ++ t.title))).Nodup := by
    have : ((tasksQuery db pid dist).map
        ((fun s => (s.stype, s.sid)) ∘ fun t => Source.mk "task" (toString t.taskNumber)
          ("#" ++ toString t.taskNumber ++ ": " ++ t.title))) =
        ((tasksQuery db pid dist).map (fun t => toString t.taskNumber)).map
          (fun s => ("task", s)) := by
      simp [List.map_map]
    rw [this]
    exact const_pairs_nodup _ _ htsN
  have n3 : ((commitsQuery db pid dist).map
      ((fun s => (s.stype, s.sid)) ∘ fun c => Source.mk "commit" (c.commitHash.take 7)
        (c.commitHash.take 7 ++ ": " ++ firstLine c.message))).Nodup := by
    have : ((commitsQuery db pid dist).map
        ((fun s => (s.stype, s.sid)) ∘ fun c => Source.mk "commit" (c.commitHash.take 7)
          (c.commitHash.take 7 ++ ": " ++ firstLine c.message))) =
        ((commitsQuery db pid dist).map (fun r => r.commitHash.take 7)).map
          (fun s => ("commit", s)) := by
      simp [List.map_map]
    rw [this]
    exact const_pairs_nodup _ _ hcsN
  have n4 : ((dedupByKey (fun r => r.1) (docChunksQuery db pid dist)).map
      ((fun s => (s.stype, s.sid)) ∘ fun r => Source.mk "document" r.1 r.1)).Nodup := by
    have : ((dedupByKey (fun r => r.1) (docChunksQuery db pid dist)).map
        ((fun s => (s.stype, s.sid)) ∘ fun r => Source.mk "document" r.1 r.1)) =
        ((dedupByKey (fun r => r.1) (docChunksQuery db pid dist)).map (fun r => r.1)).map
          (fun s => ("document", s)) := by
      simp [List.map_map]
    rw [this]
    exact const_pairs_nodup _ _ (dedupByKey_keys_nodup _ _)
  have n5 : ((dedupByKey (fun p => p)
        ((codeChunksQuery db pid dist).filterMap (fun c =>
          match ((filesQuery db pid dist).find? (fun f => f.id == c.fileId)).map (·.path) with
          | some p => if p.isEmpty then none else some p
          | none => none))).map
      ((fun s => (s.stype, s.sid)) ∘ fun p => Source.mk "code" p p)).Nodup := by
    have heq : ((dedupByKey (fun p => p)
          ((codeChunksQuery db pid dist).filterMap (fun c =>
            match ((filesQuery db pid dist).find? (fun f => f.id == c.fileId)).map (·.path) with
            | some p => if p.isEmpty then none else some p
            | none => none))).map
        ((fun s => (s.stype, s.sid)) ∘ fun p => Source.mk "code" p p)) =
        ((dedupByKey (fun p => p)
          ((codeChunksQuery db pid dist).filterMap (fun c =>
            match ((filesQuery db pid dist).find? (fun f => f.id == c.fileId)).map (·.path) with
            | some p => if p.isEmpty then none else some p
            | none => none))).map (fun p => p)).map
          (fun s => ("code", s)) := by
      simp [List.map_map]
    rw [heq]
    exact const_pairs_nodup _ _ (dedupByKey_keys_nodup _ _)
  refine List.nodup_append.mpr ⟨List.nodup_append.mpr ⟨List.nodup_append.mpr
    ⟨List.nodup_append.mpr ⟨n1, n2, ?_⟩, n3, ?_⟩, n4, ?_⟩, n5, ?_⟩
  · exact disjoint_of_fst_ne (by decide) hk1 hk2
  · intro x hx hx3
    have h3 := hk3 x hx3
    rcases List.mem_append.mp hx with h | h
    · exact absurd ((hk1 x h).symm.trans h3) (by decide)
    · exact absurd ((hk2 x h).symm.trans h3) (by decide)
  · intro x hx hx4
    have h4 := hk4 x hx4
    rcases List.mem_append.mp hx with h12 | h3
    · rcases List.mem_append.mp h12 with h | h
      · exact absurd ((hk1 x h).symm.trans h4) (by decide)
      · exact absurd ((hk2 x h).symm.trans h4) (by decide)
    · exact absurd ((hk3 x h3).symm.trans h4) (by decide)
  · intro x hx hx5
    have h5 := hk5 x hx5
    rcases List.mem_append.mp hx with h123 | h4
    · rcases List.mem_append.mp h123 with h12 | h3
      · rcases List.mem_append.mp h12 with h | h
        · exact absurd ((hk1 x h).symm.trans h5) (by decide)
        · exact absurd ((hk2 x h).symm.trans h5) (by decide)
      · exact absurd ((hk3 x h3).symm.trans h5) (by decide)
    · exact absurd ((hk4 x h4).symm.trans h5) (by decide)

/-- Witness for the amended C7 at a database with every source type
populated. -/
theorem sources_no_dup_keys_witness :
    (sourceKeys (buildSources dbRich 1 dist0)).Nodup :=
  sources_no_dup_keys dbRich 1 dist0 (by decide) (by decide) (by decide)

theorem insertCommitFile_ok_shape {cid fid : Nat} {ct : String} {db d2 : DB}
    (h : insertCommitFile cid fid ct db = Except.ok d2) :
    d2 = { db with commitFiles := db.commitFiles ++ [⟨cid, fid, ct⟩] } := by
  rw [insertCommitFile] at h
  split at h
  · exact absurd h (by simp)
  · exact (Except.ok.inj h).symm

theorem insertCommit_ok_shape {pid : Nat} {c : CommitInfo} {emb : String} {db db1 : DB}
    {cid : Nat} (h : insertCommit pid c emb db = Except.ok (db1, cid)) :
    db1 = { db with
      commits := db.commits ++ [⟨db.nextCommitId, pid, c.hash, c.authorName,
        c.authorEmail, c.date, c.message, emb⟩],
      nextCommitId := db.nextCommitId + 1 } ∧ cid = db.nextCommitId := by
  rw [insertCommit] at h
  split at h
  · exact absurd h (by simp)
  · have h2 := Except.ok.inj h
    exact ⟨(congrArg Prod.fst h2).symm, (congrArg Prod.snd h2).symm⟩

theorem linkChangedFiles_shape (pid cid : Nat) :
    ∀ (changed : List (String × String)) (db d2 : DB),
      linkChangedFiles pid cid changed db = Except.ok d2 →
      d2 = { db with commitFiles := d2.commitFiles } := by
  intro changed
  induction changed with
  | nil =>
    intro db d2 h
    rw [linkChangedFiles] at h
    have h2 := Except.ok.inj h
    subst h2
    rfl
  | cons pr rest ih =>
    intro db d2 h
    rw [linkChangedFiles] at h
    cases hl : lookupFileId db pid pr.2 with
    | none =>
      simp only [hl] at h
      exact ih db d2 h
    | some fid =>
      simp only [hl] at h
      cases hins : insertCommitFile cid fid pr.1 db with
      | error e => simp only [hins] at h; exact absurd h (by simp)
      | ok dmid =>
        simp only [hins] at h
        have hshape := insertCommitFile_ok_shape hins
        have h2 := ih dmid d2 h
        rw [hshape] at h2
        exact h2

theorem updateTasksDone_length (now pid n : Nat) (ts : List TaskRow) :
    (updateTasksDone now pid n ts).length = ts.length := by
  rw [updateTasksDone]
  exact List.length_map _ _

theorem mem_updateTasksDone_of_untouched (now pid n : Nat) (ts : List TaskRow)
    (t : TaskRow) (ht : t ∈ ts)
    (hcond : ¬(t.projectId = pid ∧ t.taskNumber = n ∧ t.status ≠ "done")) :
    t ∈ updateTasksDone now pid n ts := by
  rw [updateTasksDone]
  have heq : (if t.projectId == pid && t.taskNumber == n && t.status != "done" then
      { t with status := "done", updatedAt := now } else t) = t := by
    rw [if_neg]
    intro hb
    simp only [Bool.and_eq_true, beq_iff_eq, bne_iff_ne, ne_eq] at hb
    exact hcond ⟨hb.1.1, hb.1.2, hb.2⟩
  exact heq ▸ List.mem_map_of_mem _ ht

theorem mem_updateTasksDone_of_hit (now pid n : Nat) (ts : List TaskRow)
    (t : TaskRow) (ht : t ∈ ts) (h1 : t.projectId = pid) (h2 : t.taskNumber = n)
    (h3 : t.status ≠ "done") :
    ({ t with status := "done", updatedAt := now } : TaskRow) ∈
      updateTasksDone now pid n ts := by
  rw [updateTasksDone]
  have heq : (if t.projectId == pid && t.taskNumber == n && t.status != "done" then
      { t with status := "done", updatedAt := now } else t) =
      { t with status := "done", updatedAt := now } := by
    rw [if_pos]
    simp only [Bool.and_eq_true, beq_iff_eq, bne_iff_ne, ne_eq]
    exact ⟨⟨h1, h2⟩, h3⟩
  exact heq ▸ List.mem_map_of_mem _ ht

theorem updateTasksDone_id (now pid n : Nat) :
    ∀ (ts : List TaskRow), (∀ t ∈ ts, ¬(t.projectId = pid ∧ t.taskNumber = n)) →
      updateTasksDone now pid n ts = ts := by
  intro ts
  induction ts with
  | nil => intro _; rfl
  | cons t ts ih =>
    intro hno
    rw [updateTasksDone, List.map_cons]
    have heq : (if t.projectId == pid && t.taskNumber == n && t.status != "done" then
        { t with status := "done", updatedAt := now } else t) = t := by
      rw [if_neg]
      intro hb
      simp only [Bool.and_eq_true, beq_iff_eq, bne_iff_ne, ne_eq] at hb
      exact hno t (List.mem_cons_self _ _) ⟨hb.1.1, hb.1.2⟩
    rw [heq]
    have htail := ih (fun t' ht' => hno t' (List.mem_cons_of_mem _ ht'))
    rw [updateTasksDone] at htail
    rw [htail]

theorem generateTask_shape (env : Env) (pid : Nat) (c : CommitInfo) (db : DB) :
    (generateTaskFromCommit env pid c db).1 = { db with
      tasks := (generateTaskFromCommit env pid c db).1.tasks,
      nextTaskNumber := (generateTaskFromCommit env pid c db).1.nextTaskNumber } := by
  rw [generateTaskFromCommit]
  split
  · rfl
  · split <;> rfl

theorem generateTask_none (env : Env) (pid : Nat) (c : CommitInfo) (db : DB)
    (h : taskGenProduces env c = none) :
    (generateTaskFromCommit env pid c db).1 = db := by
  rw [taskGenProduces] at h
  rw [generateTaskFromCommit]
  split
  · rfl
  · next hbig =>
    rw [if_neg hbig] at h
    cases hout : taskGenOutcome env c (env.gitShowPatch c.hash) with
    | error e => rfl
    | ok o =>
      cases o with
      | none => rfl
      | some x => simp only [hout] at h; exact absurd h (by simp)

theorem generateTask_some (env : Env) (pid : Nat) (c : CommitInfo) (db : DB)
    (ti cat de em : String)
    (h : taskGenProduces env c = some (ti, cat, de, em)) :
    (generateTaskFromCommit env pid c db).1 = insertTask pid ti de cat em c.date db := by
  rw [taskGenProduces] at h
  rw [generateTaskFromCommit]
  split
  · next hsmall => rw [if_pos hsmall] at h; exact absurd h (by simp)
  · next hbig =>
    rw [if_neg hbig] at h
    cases hout : taskGenOutcome env c (env.gitShowPatch c.hash) with
    | error e => simp only [hout] at h; exact absurd h (by simp)
    | ok o =>
      cases o with
      | none => simp only [hout] at h; exact absurd h (by simp)
      | some x =>
        simp only [hout] at h
        have hx := Option.some.inj h
        subst hx
        rfl

theorem processCommitBody_parts {env : Env} {pid : Nat} {c : CommitInfo} {db db' : DB}
    {logs : List String}
    (hok : processCommitBody env pid c db = Except.ok (db', logs)) :
    ∃ emb db2,
      env.embed c.message = Except.ok emb ∧
      db2.files = db.files ∧ db2.tasks = db.tasks ∧
      db2.nextTaskNumber = db.nextTaskNumber ∧ db2.chunks = db.chunks ∧
      db2.nextFileId = db.nextFileId ∧
      db2.commits = db.commits ++ [⟨db.nextCommitId, pid, c.hash, c.authorName,
        c.authorEmail, c.date, c.message, emb⟩] ∧
      db2.nextCommitId = db.nextCommitId + 1 ∧
      ((∀ n, findTaskRef c.message = some n →
        db' = { db2 with tasks := updateTasksDone env.now pid n db2.tasks }) ∧
      (findTaskRef c.message = none → db' = (generateTaskFromCommit env pid c db2).1)) := by
  rw [processCommitBody] at hok
  cases hembed : env.embed c.message with
  | error e => simp only [hembed] at hok; exact absurd hok (by simp)
  | ok emb =>
    simp only [hembed] at hok
    cases hic : insertCommit pid c emb db with
    | error e => simp only [hic] at hok; exact absurd hok (by simp)
    | ok p =>
      obtain ⟨db1, cid⟩ := p
      simp only [hic] at hok
      obtain ⟨hdb1, hcid⟩ := insertCommit_ok_shape hic
      cases hlf : linkChangedFiles pid cid
          (parseNameStatus (env.gitShowNameStatus c.hash)) db1 with
      | error e => simp only [hlf] at hok; exact absurd hok (by simp)
      | ok db2 =>
        simp only [hlf] at hok
        have hsh := linkChangedFiles_shape pid cid _ db1 db2 hlf
        refine ⟨emb, db2, rfl, ?_, ?_, ?_, ?_, ?_, ?_, ?_, ?_, ?_⟩
        · rw [hsh, hdb1]
        · rw [hsh, hdb1]
        · rw [hsh, hdb1]
        · rw [hsh, hdb1]
        · rw [hsh, hdb1]
        · rw [hsh, hdb1]
        · rw [hsh, hdb1]
        · intro n hn
          simp only [hn] at hok
          have h2 := Except.ok.inj hok
          exact (congrArg Prod.fst h2).symm
        · intro hn
          simp only [hn] at hok
          have h2 := Except.ok.inj hok
          exact (congrArg Prod.fst h2).symm

/-- C4: closing-reference handling is exclusive with retrospective
generation.  For a commit whose transaction body commits: if the message
matches the closes/fixes/resolves pattern with task number n, the tasks
table is exactly the update that flips task n of the project to done
(touching nothing else, inserting no task, leaving an already-done task
untouched, and affecting zero rows without error when no such task
number exists); if the message has no match, retrospective generation
runs, and the commit row is stored in both cases. -/
theorem closing_ref_exclusive (env : Env) (pid : Nat) (c : CommitInfo) (db db' : DB)
    (logs : List String)
    (hok : processCommitBody env pid c db = Except.ok (db', logs)) :
    (∀ n, findTaskRef c.message = some n →
      db'.tasks = updateTasksDone env.now pid n db.tasks ∧
      db'.tasks.length = db.tasks.length ∧
      (∀ t ∈ db.tasks, t.projectId = pid → t.taskNumber = n → t.status ≠ "done" →
        ({ t with status := "done", updatedAt := env.now } : TaskRow) ∈ db'.tasks) ∧
      (∀ t ∈ db.tasks, ¬(t.projectId = pid ∧ t.taskNumber = n ∧ t.status ≠ "done") →
        t ∈ db'.tasks) ∧
      ((¬ ∃ t ∈ db.tasks, t.projectId = pid ∧ t.taskNumber = n) →
        db'.tasks = db.tasks)) ∧
    (findTaskRef c.message = none →
      (taskGenProduces env c = none → db'.tasks = db.tasks) ∧
      (∀ ti cat de em, taskGenProduces env c = some (ti, cat, de, em) →
        db'.tasks = db.tasks ++
          [⟨pid, db.nextTaskNumber, ti, de, "done", cat, em, c.date, c.date⟩])) ∧
    (∃ r ∈ db'.commits, r.projectId = pid ∧ r.commitHash = c.hash) := by
  obtain ⟨emb, db2, hembed, hfiles, htasks, hntn, hchunks, hnfi, hcommits, hncid,
    hsome, hnone⟩ := processCommitBody_parts hok
  refine ⟨?_, ?_, ?_⟩
  · intro n hn
    have hdb' := hsome n hn
    have htasks' : db'.tasks = updateTasksDone env.now pid n db.tasks := by
      rw [hdb']
      show updateTasksDone env.now pid n db2.tasks = _
      rw [htasks]
    refine ⟨htasks', ?_, ?_, ?_, ?_⟩
    · rw [htasks', updateTasksDone_length]
    · intro t ht h1 h2 h3
      rw [htasks']
      exact mem_updateTasksDone_of_hit env.now pid n db.tasks t ht h1 h2 h3
    · intro t ht hcond
      rw [htasks']
      exact mem_updateTasksDone_of_untouched env.now pid n db.tasks t ht hcond
    · intro hno
      rw [htasks']
      apply updateTasksDone_id
      intro t ht hand
      exact hno ⟨t, ht, hand⟩
  · intro hn
    have hdb' := hnone hn
    constructor
    · intro hprod
      rw [hdb', generateTask_none env pid c db2 hprod]
      exact htasks
    · intro ti cat de em hprod
      rw [hdb', generateTask_some env pid c db2 ti cat de em hprod]
      show db2.tasks ++ _ = _
      rw [htasks, hntn]
  · have hcommits' : db'.commits = db2.commits := by
      cases hft : findTaskRef c.message with
      | some n =>
        have hdb' := hsome n hft
        rw [hdb']
      | none =>
        have hdb' := hnone hft
        rw [hdb', generateTask_shape env pid c db2]
    refine ⟨⟨db.nextCommitId, pid, c.hash, c.authorName, c.authorEmail, c.date,
      c.message, emb⟩, ?_, rfl, rfl⟩
    rw [hcommits', hcommits]
    exact List.mem_append_right _ (List.mem_singleton.mpr rfl)

/-- Witness for C4: a commit message with a closes-reference flips the
referenced open task, keeps the task count, and stores the commit row. -/
theorem closing_ref_exclusive_witness :
    dbAfterCloses12.tasks = updateTasksDone 99 1 1 dbTwoTasks.tasks ∧
    dbAfterCloses12.tasks.length = dbTwoTasks.tasks.length ∧
    ∃ r ∈ dbAfterCloses12.commits, r.projectId = 1 ∧ r.commitHash = "deadbee1" := by
  have h := closing_ref_exclusive envOK 1 commitCloses12 dbTwoTasks dbAfterCloses12
    ["Found reference to close task #1."] (by rfl)
  have h1 := h.1 1 (by rfl)
  exact ⟨h1.1, h1.2.1, h.2.2⟩

theorem trivial_taskGenProduces_none (env : Env) (c : CommitInfo)
    (htrivial :
      (env.gitShowPatch c.hash == "") = true ∨
      (jsTrim (env.gitShowPatch c.hash)).length < 50 ∨
      (∃ raw, env.completeTask c.message (env.gitShowPatch c.hash) = Except.ok raw ∧
        (jsTrim raw = "" ∨ asciiUpper (jsTrim raw) = "NULL")) ∨
      (∃ raw e, env.completeTask c.message (env.gitShowPatch c.hash) = Except.ok raw ∧
        env.parseTaskJson (jsTrim raw) = Except.error e) ∨
      (∃ raw fields,
        env.completeTask c.message (env.gitShowPatch c.hash) = Except.ok raw ∧
        env.parseTaskJson (jsTrim raw) = Except.ok fields ∧
        (fieldMissing fields.title = true ∨ fieldMissing fields.category = true ∨
          fieldMissing fields.description = true))) :
    taskGenProduces env c = none := by
  rw [taskGenProduces]
  split
  · rfl
  · next hbig =>
    cases hout : taskGenOutcome env c (env.gitShowPatch c.hash) with
    | error e => rfl
    | ok o =>
      cases o with
      | none => rfl
      | some x =>
        exfalso
        rw [taskGenOutcome] at hout
        cases hraw : env.completeTask c.message (env.gitShowPatch c.hash) with
        | error e => simp only [hraw] at hout; exact absurd hout (by simp)
        | ok raw =>
          simp only [hraw] at hout
          split at hout
          · exact absurd hout (by simp)
          · next htriv =>
            cases hparse : env.parseTaskJson (jsTrim raw) with
            | error e => simp only [hparse] at hout; exact absurd hout (by simp)
            | ok fields =>
              simp only [hparse] at hout
              split at hout
              · exact absurd hout (by simp)
              · next hmiss =>
                rcases htrivial with h1 | h2 | ⟨raw', hraw', htriv'⟩ |
                    ⟨raw', e', hraw', hparse'⟩ | ⟨raw', fields', hraw', hparse', hmiss'⟩
                · exact hbig (by simp [h1])
                · exact hbig (by simp [h2])
                · have hr : raw' = raw := Except.ok.inj (hraw'.symm.trans hraw)
                  subst hr
                  apply htriv
                  rcases htriv' with ht | ht <;> simp [ht]
                · have hr : raw' = raw := Except.ok.inj (hraw'.symm.trans hraw)
                  subst hr
                  rw [hparse'] at hparse
                  exact absurd hparse (by simp)
                · have hr : raw' = raw := Except.ok.inj (hraw'.symm.trans hraw)
                  subst hr
                  rw [hparse'] at hparse
                  have hf : fields' = fields := Except.ok.inj hparse
                  subst hf
                  apply hmiss
                  rcases hmiss' with hm | hm | hm <;> simp [hm]

/-- C9: a trivial commit never produces a retrospective task.  For a
commit without a task-closing reference whose transaction body commits:
if the patch is absent or below the 50-character threshold, or the
model returns the empty/NULL sentinel, or the JSON fails to decode, or
a required field is missing, the tasks table is unchanged while the
commit row itself is stored. -/
theorem trivial_commit_no_task (env : Env) (pid : Nat) (c : CommitInfo) (db db' : DB)
    (logs : List String)
    (hnoref : findTaskRef c.message = none)
    (hok : processCommitBody env pid c db = Except.ok (db', logs))
    (htrivial :
      (env.gitShowPatch c.hash == "") = true ∨
      (jsTrim (env.gitShowPatch c.hash)).length < 50 ∨
      (∃ raw, env.completeTask c.message (env.gitShowPatch c.hash) = Except.ok raw ∧
        (jsTrim raw = "" ∨ asciiUpper (jsTrim raw) = "NULL")) ∨
      (∃ raw e, env.completeTask c.message (env.gitShowPatch c.hash) = Except.ok raw ∧
        env.parseTaskJson (jsTrim raw) = Except.error e) ∨
      (∃ raw fields,
        env.completeTask c.message (env.gitShowPatch c.hash) = Except.ok raw ∧
        env.parseTaskJson (jsTrim raw) = Except.ok fields ∧
        (fieldMissing fields.title = true ∨ fieldMissing fields.category = true ∨
          fieldMissing fields.description = true))) :
    db'.tasks = db.tasks ∧
      ∃ r ∈ db'.commits, r.projectId = pid ∧ r.commitHash = c.hash := by
  obtain ⟨emb, db2, _, _, htasks, _, _, _, hcommits, _, _, hnone⟩ :=
    processCommitBody_parts hok
  have hprod := trivial_taskGenProduces_none env c htrivial
  have hdb' := hnone hnoref
  constructor
  · rw [hdb', generateTask_none env pid c db2 hprod]
    exact htasks
  · have hcommits' : db'.commits = db2.commits := by
      rw [hdb', generateTask_shape env pid c db2]
    refine ⟨⟨db.nextCommitId, pid, c.hash, c.authorName, c.authorEmail, c.date,
      c.message, emb⟩, ?_, rfl, rfl⟩
    rw [hcommits', hcommits]
    exact List.mem_append_right _ (List.mem_singleton.mpr rfl)

/-- Witness for C9: an empty patch produces no task and the commit row
is stored. -/
theorem trivial_commit_no_task_witness :
    dbAfterNoRef.tasks = dbTwoTasks.tasks ∧
      ∃ r ∈ dbAfterNoRef.commits, r.projectId = 1 ∧ r.commitHash = "cafebab2" :=
  trivial_commit_no_task envOK 1 commitNoRef dbTwoTasks dbAfterNoRef
    ["Commit cafebab is trivial, skipping task generation."]
    (by rfl) (by rfl) (Or.inl (by rfl))

/-- C10: at most one task is auto-closed per commit.  When the message
matches the pattern, the captured number n is that of the first match
(findTaskRef models the single exec call); the committed state changes
no task row whose number differs from n, inserts no task, and flips an
open task n of the project to done. -/
theorem first_reference_only (env : Env) (pid : Nat) (c : CommitInfo) (db db' : DB)
    (logs : List String) (n : Nat)
    (href : findTaskRef c.message = some n)
    (hok : processCommitBody env pid c db = Except.ok (db', logs)) :
    db'.tasks.length = db.tasks.length ∧
    (∀ t ∈ db.tasks, t.taskNumber ≠ n → t ∈ db'.tasks) ∧
    (∀ t ∈ db.tasks, t.projectId = pid → t.taskNumber = n → t.status ≠ "done" →
      ({ t with status := "done", updatedAt := env.now } : TaskRow) ∈ db'.tasks) := by
  obtain ⟨emb, db2, _, _, htasks, _, _, _, _, _, hsome, _⟩ :=
    processCommitBody_parts hok
  have hdb' := hsome n href
  have htasks' : db'.tasks = updateTasksDone env.now pid n db.tasks := by
    rw [hdb']
    show updateTasksDone env.now pid n db2.tasks = _
    rw [htasks]
  refine ⟨by rw [htasks', updateTasksDone_length], ?_, ?_⟩
  · intro t ht hne
    rw [htasks']
    exact mem_updateTasksDone_of_untouched env.now pid n db.tasks t ht
      (fun hand => hne hand.2.1)
  · intro t ht h1 h2 h3
    rw [htasks']
    exact mem_updateTasksDone_of_hit env.now pid n db.tasks t ht h1 h2 h3

/-- Witness for C10: the message closes two tasks but only task 1 (the
first match) flips; task 2 stays open. -/
theorem first_reference_only_witness :
    findTaskRef "closes #1 and fixes #2" = some 1 ∧
    (⟨1, 2, "two", "d", "open", "c", "e", 0, 0⟩ : TaskRow) ∈ dbAfterCloses12.tasks ∧
    (⟨1, 1, "one", "d", "done", "c", "e", 0, 99⟩ : TaskRow) ∈ dbAfterCloses12.tasks := by
  have h := first_reference_only envOK 1 commitCloses12 dbTwoTasks dbAfterCloses12
    ["Found reference to close task #1."] 1 (by rfl) (by rfl)
  refine ⟨by rfl, ?_, ?_⟩
  · exact h.2.1 ⟨1, 2, "two", "d", "open", "c", "e", 0, 0⟩ (by decide) (by decide)
  · exact h.2.2 ⟨1, 1, "one", "d", "open", "c", "e", 0, 0⟩ (by decide) rfl rfl (by decide)

theorem syncOneFile_skip (env : Env) (pid : Nat) (f : DiskFile) (db : DB)
    (h : (jsTrim f.content == "") = true ∨
      storedHash db pid f.path = some (env.hashFn f.content)) :
    syncOneFile env pid f db = (db, []) := by
  rw [syncOneFile]
  rcases h with h | h
  · rw [if_pos h]
  · by_cases hc : (jsTrim f.content == "") = true
    · rw [if_pos hc]
    · rw [if_neg hc, if_pos (by simp [h])]

theorem syncFilesLoop_id (env : Env) (pid : Nat) :
    ∀ (l : List DiskFile) (db : DB) (logs : List String),
      (∀ f ∈ l, syncOneFile env pid f db = (db, [])) →
      syncFilesLoop env pid l (db, logs) = (db, logs) := by
  intro l
  induction l with
  | nil => intro db logs _; rfl
  | cons f rest ih =>
    intro db logs hall
    have hf := hall f (List.mem_cons_self _ _)
    rw [syncFilesLoop]
    simp only [hf, List.append_nil]
    exact ih db logs (fun g hg => hall g (List.mem_cons_of_mem _ hg))

/-- C2: file sync is idempotent via content hashes.  When every stored
path of the project is still on disk (prune deletes nothing) and every
indexable disk file is whitespace-only or matches the stored hash, the
run leaves the database exactly unchanged and performs no per-file
transaction at all. -/
theorem syncFiles_idempotent (env : Env) (pid : Nat) (disk : List DiskFile)
    (accepts : String → Bool) (db : DB)
    (hprune : ∀ r ∈ db.files, r.projectId = pid → r.path ∈ disk.map DiskFile.path)
    (hskip : ∀ f ∈ disk, indexableFile accepts f.path = true →
      ¬((jsTrim f.content == "") = true) →
      storedHash db pid f.path = some (env.hashFn f.content)) :
    syncFiles env pid disk accepts db = (db, []) := by
  rw [syncFiles]
  have hdel : ((db.files.filter (fun r => r.projectId == pid)).map (·.path)).filter
      (fun p => !(disk.map DiskFile.path).contains p) = [] := by
    rw [List.filter_eq_nil]
    intro p hp
    obtain ⟨r, hr, rfl⟩ := List.mem_map.mp hp
    have hrp := List.mem_filter.mp hr
    have hmem := hprune r hrp.1 (by simpa using hrp.2)
    simp [hmem]
  rw [hdel]
  simp only [List.isEmpty_nil, if_true]
  apply syncFilesLoop_id
  intro f hf
  have hfd := List.mem_filter.mp hf
  apply syncOneFile_skip
  by_cases hc : (jsTrim f.content == "") = true
  · exact Or.inl hc
  · exact Or.inr (hskip f hfd.1 hfd.2 hc)

/-- Witness for C2 at a concrete synced state. -/
theorem syncFiles_idempotent_witness :
    syncFiles envOK 1 diskOneFile acceptAll dbOneSynced = (dbOneSynced, []) :=
  syncFiles_idempotent envOK 1 diskOneFile acceptAll dbOneSynced
    (by decide) (by decide)

theorem filter_filter_of_imp (p q : α → Bool) :
    ∀ (l : List α), (∀ a ∈ l, q a = true → p a = true) →
      (l.filter p).filter q = l.filter q := by
  intro l
  induction l with
  | nil => intro _; rfl
  | cons a l ih =>
    intro h
    have htail := fun b hb => h b (List.mem_cons_of_mem _ hb)
    cases hpa : p a
    · have hqa : q a = false := by
        cases hqa : q a
        · rfl
        · exact absurd (h a (List.mem_cons_self _ _) hqa) (by simp [hpa])
      simp [List.filter_cons, hpa, hqa, ih htail]
    · cases hqa : q a <;> simp [List.filter_cons, hpa, hqa, ih htail]

theorem deleteFiles_view (pid : Nat) (ps : List String) (p : String) (db : DB)
    (hp : ¬ p ∈ ps) (hwf : FilesWF db) :
    fileView (deleteFilesByPaths pid ps db) pid p = fileView db pid p := by
  have hcf : ps.contains p = false := by
    cases hc : ps.contains p
    · rfl
    · exact absurd (by simpa using hc) hp
  rw [fileView, fileView, deleteFilesByPaths]
  have hfiles : (db.files.filter (fun r => !(r.projectId == pid && ps.contains r.path))).filter
      (fun r => r.projectId == pid && r.path == p) =
      db.files.filter (fun r => r.projectId == pid && r.path == p) := by
    apply filter_filter_of_imp
    intro r _ hq
    simp only [Bool.and_eq_true, beq_iff_eq] at hq
    obtain ⟨hq1, hq2⟩ := hq
    rw [hq2]
    simp only [Bool.not_eq_true', Bool.and_eq_false_iff]
    simp
    exact Or.inr hp
  simp only [hfiles]
  have hchunks : (db.chunks.filter (fun c =>
      !((db.files.filter (fun r => r.projectId == pid && ps.contains r.path)).map
        (·.id)).contains c.fileId)).filter
      (fun c => (((db.files.filter (fun r => r.projectId == pid && r.path == p)).map
        (·.id)).contains c.fileId)) =
      db.chunks.filter (fun c =>
        (((db.files.filter (fun r => r.projectId == pid && r.path == p)).map
          (·.id)).contains c.fileId)) := by
    apply filter_filter_of_imp
    intro cch _ hq
    have hmem : cch.fileId ∈
        (db.files.filter (fun r => r.projectId == pid && r.path == p)).map (·.id) := by
      simpa using hq
    obtain ⟨r, hr, hrid⟩ := List.mem_map.mp hmem
    have hrdb := List.mem_of_mem_filter hr
    have hrpred := List.mem_filter.mp hr
    simp only [Bool.and_eq_true, beq_iff_eq] at hrpred
    cases hdc : ((db.files.filter (fun r => r.projectId == pid && ps.contains r.path)).map
        (·.id)).contains cch.fileId
    · rfl
    · exfalso
      have hmem2 : cch.fileId ∈
          (db.files.filter (fun r => r.projectId == pid && ps.contains r.path)).map
            (·.id) := by
        simpa using hdc
      obtain ⟨d, hd, hdid⟩ := List.mem_map.mp hmem2
      have hddb := List.mem_of_mem_filter hd
      have hdpred := List.mem_filter.mp hd
      simp only [Bool.and_eq_true, beq_iff_eq] at hdpred
      have hrd : r = d :=
        List.inj_on_of_nodup_map hwf.2 hrdb hddb (hrid.trans hdid.symm)
      have : p ∈ ps := by
        have := hdpred.2.2
        rw [← hrd] at this
        rw [hrpred.2.2] at this
        simpa using this
      exact hp this
  simp only [hchunks]

theorem deleteFiles_wf (pid : Nat) (ps : List String) (db : DB) (hwf : FilesWF db) :
    FilesWF (deleteFilesByPaths pid ps db) := by
  constructor
  · intro r hr
    exact hwf.1 r (List.mem_of_mem_filter hr)
  · exact List.Nodup.sublist ((List.filter_sublist _).map _) hwf.2

theorem insertFile_view (pid : Nat) (q hsh s emb : String) (p : String) (db : DB)
    (hne : q ≠ p) :
    fileView (insertFile pid q hsh s emb db).1 pid p = fileView db pid p := by
  rw [fileView, fileView, insertFile]
  simp only [List.filter_append]
  have hrow : List.filter (fun r => r.projectId == pid && r.path == p)
      [(⟨db.nextFileId, pid, q, hsh, s, emb⟩ : FileRow)] = [] := by
    simp [hne]
  simp only [hrow, List.append_nil]

theorem insertFile_wf (pid : Nat) (q hsh s emb : String) (db : DB) (hwf : FilesWF db) :
    FilesWF (insertFile pid q hsh s emb db).1 := by
  constructor
  · intro r hr
    simp only [insertFile] at hr ⊢
    rcases List.mem_append.mp hr with h | h
    · exact Nat.lt_succ_of_lt (hwf.1 r h)
    · rw [List.mem_singleton.mp h]
      exact Nat.lt_succ_self _
  · simp only [insertFile, List.map_append, List.map_cons, List.map_nil]
    rw [List.nodup_append]
    refine ⟨hwf.2, List.nodup_singleton _, ?_⟩
    intro a ha hb
    obtain ⟨r, hr, hrid⟩ := List.mem_map.mp ha
    rw [List.mem_singleton.mp hb] at hrid
    exact absurd hrid (Nat.ne_of_lt (hwf.1 r hr))

theorem insertChunk_view (fid : Nat) (ch : ChunkSpec) (emb : String) (pid : Nat)
    (p : String) (db : DB)
    (hb : ∀ r ∈ db.files, (r.projectId == pid && r.path == p) = true → r.id < fid) :
    fileView (insertChunk fid ch emb db) pid p = fileView db pid p := by
  rw [fileView, fileView, insertChunk]
  simp only [List.filter_append]
  have hrow : List.filter (fun c =>
      (((db.files.filter (fun r => r.projectId == pid && r.path == p)).map
        (·.id)).contains c.fileId))
      [(⟨fid, ch.name, ch.ctype, ch.content, ch.startLine, ch.endLine, emb⟩ : ChunkRow)] =
      [] := by
    rw [List.filter_eq_nil]
    intro a ha
    rw [List.mem_singleton] at ha
    subst ha
    intro hc
    have hmem : fid ∈ (db.files.filter
        (fun r => r.projectId == pid && r.path == p)).map (·.id) := by
      simpa using hc
    obtain ⟨r, hr, hrid⟩ := List.mem_map.mp hmem
    have hrf := List.mem_filter.mp hr
    exact absurd hrid (Nat.ne_of_lt (hb r hrf.1 hrf.2))
  simp only [hrow, List.append_nil]

theorem insertChunksLoop_view (env : Env) (fid : Nat) (pid : Nat) (p : String) :
    ∀ (chunks : List ChunkSpec) (db db' : DB),
      insertChunksLoop env fid chunks db = Except.ok db' →
      (∀ r ∈ db.files, (r.projectId == pid && r.path == p) = true → r.id < fid) →
      fileView db' pid p = fileView db pid p ∧ db'.files = db.files ∧
        db'.nextFileId = db.nextFileId := by
  intro chunks
  induction chunks with
  | nil =>
    intro db db' hok _
    rw [insertChunksLoop] at hok
    have := Except.ok.inj hok
    subst this
    exact ⟨rfl, rfl, rfl⟩
  | cons ch rest ih =>
    intro db db' hok hb
    rw [insertChunksLoop] at hok
    cases hemb : env.embed ch.content with
    | error e => simp only [hemb] at hok; exact absurd hok (by simp)
    | ok ce =>
      simp only [hemb] at hok
      have hb2 : ∀ r ∈ (insertChunk fid ch ce db).files,
          (r.projectId == pid && r.path == p) = true → r.id < fid := by
        intro r hr
        exact hb r (by simpa [insertChunk] using hr)
      obtain ⟨hv, hf, hn⟩ := ih (insertChunk fid ch ce db) db' hok hb2
      refine ⟨hv.trans (insertChunk_view fid ch ce pid p db hb), ?_, ?_⟩
      · rw [hf]; rfl
      · rw [hn]; rfl

theorem fileTransaction_ok_view (env : Env) (pid : Nat) (f : DiskFile) (hsh : String)
    (p : String) (db db' : DB) (hwf : FilesWF db) (hne : f.path ≠ p)
    (hok : fileTransaction env pid f hsh db = Except.ok db') :
    fileView db' pid p = fileView db pid p ∧ FilesWF db' := by
  simp only [fileTransaction] at hok
  cases hsemb : env.embed (env.summarize f.path f.content) with
  | error e => simp only [hsemb] at hok; exact absurd hok (by simp)
  | ok semb =>
    simp only [hsemb] at hok
    cases hcc : env.chunkCode f.content with
    | error e => simp only [hcc] at hok; exact absurd hok (by simp)
    | ok chunks =>
      simp only [hcc] at hok
      have hpne : ¬ p ∈ [f.path] := by
        intro hmem
        exact hne (List.mem_singleton.mp hmem).symm
      have hv1 := deleteFiles_view pid [f.path] p db hpne hwf
      have hwf1 := deleteFiles_wf pid [f.path] db hwf
      have hv2 := insertFile_view pid f.path hsh (env.summarize f.path f.content) semb p
        (deleteFilesByPaths pid [f.path] db) hne
      have hwf2 := insertFile_wf pid f.path hsh (env.summarize f.path f.content) semb
        (deleteFilesByPaths pid [f.path] db) hwf1
      have hnext1 : (deleteFilesByPaths pid [f.path] db).nextFileId = db.nextFileId := rfl
      have hb : ∀ r ∈ (insertFile pid f.path hsh (env.summarize f.path f.content) semb
          (deleteFilesByPaths pid [f.path] db)).1.files,
          (r.projectId == pid && r.path == p) = true →
          r.id < (insertFile pid f.path hsh (env.summarize f.path f.content) semb
            (deleteFilesByPaths pid [f.path] db)).2 := by
        intro r hr hpred
        simp only [insertFile] at hr ⊢
        rcases List.mem_append.mp hr with h | h
        · exact hwf1.1 r h
        · exfalso
          rw [List.mem_singleton.mp h] at hpred
          simp only [Bool.and_eq_true, beq_iff_eq] at hpred
          exact hne hpred.2
      obtain ⟨hv3, hf3, hn3⟩ := insertChunksLoop_view env _ pid p chunks _ db' hok hb
      constructor
      · exact hv3.trans (hv2.trans hv1)
      · constructor
        · intro r hr
          rw [hf3] at hr
          rw [hn3]
          exact hwf2.1 r hr
        · rw [hf3]
          exact hwf2.2

theorem syncOneFile_view (env : Env) (pid : Nat) (g : DiskFile) (db : DB) (p : String)
    (hwf : FilesWF db) (hne : g.path ≠ p) :
    fileView ((syncOneFile env pid g db).1) pid p = fileView db pid p ∧
      FilesWF ((syncOneFile env pid g db).1) := by
  rw [syncOneFile]
  by_cases h1 : (jsTrim g.content == "") = true
  · rw [if_pos h1]; exact ⟨rfl, hwf⟩
  · rw [if_neg h1]
    by_cases h2 : (storedHash db pid g.path == some (env.hashFn g.content)) = true
    · rw [if_pos h2]; exact ⟨rfl, hwf⟩
    · rw [if_neg h2]
      cases hft : fileTransaction env pid g (env.hashFn g.content) db with
      | ok db2 =>
        simp only [hft]
        exact fileTransaction_ok_view env pid g _ p db db2 hwf hne hft
      | error e =>
        simp only [hft]
        exact ⟨by simp, hwf⟩

theorem syncFilesLoop_view (env : Env) (pid : Nat) (p : String) :
    ∀ (l : List DiskFile) (db : DB) (logs : List String), FilesWF db →
      (∀ g ∈ l, g.path ≠ p) →
      fileView ((syncFilesLoop env pid l (db, logs)).1) pid p = fileView db pid p ∧
        FilesWF ((syncFilesLoop env pid l (db, logs)).1) := by
  intro l
  induction l with
  | nil => intro db logs hwf _; exact ⟨rfl, hwf⟩
  | cons g rest ih =>
    intro db logs hwf hne
    obtain ⟨hv, hwf2⟩ := syncOneFile_view env pid g db p hwf
      (hne g (List.mem_cons_self _ _))
    rw [syncFilesLoop]
    obtain ⟨hv2, hwf3⟩ := ih ((syncOneFile env pid g db).1)
      (logs ++ (syncOneFile env pid g db).2) hwf2
      (fun g' hg' => hne g' (List.mem_cons_of_mem _ hg'))
    exact ⟨hv2.trans hv, hwf3⟩

theorem syncFilesLoop_append (env : Env) (pid : Nat) :
    ∀ (l1 l2 : List DiskFile) (acc : DB × List String),
      syncFilesLoop env pid (l1 ++ l2) acc =
        syncFilesLoop env pid l2 (syncFilesLoop env pid l1 acc) := by
  intro l1
  induction l1 with
  | nil => intro l2 acc; rfl
  | cons g rest ih =>
    intro l2 acc
    rw [List.cons_append, syncFilesLoop, syncFilesLoop]
    exact ih l2 _

theorem syncFilesLoop_fst (env : Env) (pid : Nat) :
    ∀ (l : List DiskFile) (db : DB) (logs logs' : List String),
      (syncFilesLoop env pid l (db, logs)).1 = (syncFilesLoop env pid l (db, logs')).1 := by
  intro l
  induction l with
  | nil => intro db logs logs'; rfl
  | cons g rest ih =>
    intro db logs logs'
    rw [syncFilesLoop, syncFilesLoop]
    exact ih _ _ _

theorem syncFilesLoop_snd (env : Env) (pid : Nat) :
    ∀ (l : List DiskFile) (db : DB) (logs : List String),
      (syncFilesLoop env pid l (db, logs)).2 =
        logs ++ (syncFilesLoop env pid l (db, [])).2 := by
  intro l
  induction l with
  | nil => intro db logs; simp [syncFilesLoop]
  | cons g rest ih =>
    intro db logs
    rw [syncFilesLoop, syncFilesLoop]
    have h1 := ih (syncOneFile env pid g db).1 (logs ++ (syncOneFile env pid g db).2)
    have h2 := ih (syncOneFile env pid g db).1 ([] ++ (syncOneFile env pid g db).2)
    rw [h1, h2]
    simp

theorem storedHash_eq_of_view {db d : DB} {pid : Nat} {p : String}
    (h : fileView db pid p = fileView d pid p) :
    storedHash db pid p = storedHash d pid p := by
  rw [storedHash, storedHash]
  exact congrArg (fun l => (l.map FileRow.contentHash).head?) (congrArg Prod.fst h)

theorem chunkCallsOk_err_loop (env : Env) (fid : Nat) :
    ∀ (chunks : List ChunkSpec) (db : DB) (e : String),
      chunkCallsOk env chunks = Except.error e →
      insertChunksLoop env fid chunks db = Except.error e := by
  intro chunks
  induction chunks with
  | nil => intro db e h; rw [chunkCallsOk] at h; exact absurd h (by simp)
  | cons ch rest ih =>
    intro db e h
    rw [chunkCallsOk] at h
    rw [insertChunksLoop]
    cases hemb : env.embed ch.content with
    | error e2 =>
      simp only [hemb] at h ⊢
      rw [Except.error.inj h]
    | ok ce =>
      simp only [hemb] at h ⊢
      exact ih _ e h

theorem fileTransaction_err (env : Env) (pid : Nat) (f : DiskFile) (hsh : String)
    (db : DB) (e : String) (h : fileCallsOk env f = Except.error e) :
    fileTransaction env pid f hsh db = Except.error e := by
  rw [fileCallsOk] at h
  simp only [fileTransaction]
  cases hsemb : env.embed (env.summarize f.path f.content) with
  | error e2 =>
    simp only [hsemb] at h ⊢
    rw [Except.error.inj h]
  | ok semb =>
    simp only [hsemb] at h
    cases hcc : env.chunkCode f.content with
    | error e2 =>
      simp only [hcc] at h ⊢
      rw [Except.error.inj h]
    | ok chunks =>
      simp only [hcc] at h ⊢
      exact chunkCallsOk_err_loop env _ chunks _ e h

theorem syncOneFile_fails (env : Env) (pid : Nat) (f : DiskFile) (db : DB) (e : String)
    (hne : ¬((jsTrim f.content == "") = true))
    (hch : ¬(storedHash db pid f.path = some (env.hashFn f.content)))
    (hfail : fileCallsOk env f = Except.error e) :
    syncOneFile env pid f db = (db, [procMsg f.path, failMsg f.path e]) := by
  rw [syncOneFile, if_neg hne, if_neg (by simp [hch])]
  simp only [fileTransaction_err env pid f (env.hashFn f.content) db e hfail]

theorem syncFiles_fail_loop_aux (env : Env) (pid : Nat)
    (preF postF : List DiskFile) (f : DiskFile) (e : String) (db db1 : DB)
    (hwf1 : FilesWF db1) (hv1 : fileView db1 pid f.path = fileView db pid f.path)
    (hpreF : ∀ g ∈ preF, g.path ≠ f.path) (hpostF : ∀ g ∈ postF, g.path ≠ f.path)
    (hnonempty : ¬((jsTrim f.content == "") = true))
    (hchanged : storedHash db pid f.path ≠ some (env.hashFn f.content))
    (hfail : fileCallsOk env f = Except.error e) :
    fileView ((syncFilesLoop env pid (preF ++ f :: postF) (db1, [])).1) pid f.path =
      fileView db pid f.path ∧
    failMsg f.path e ∈ (syncFilesLoop env pid (preF ++ f :: postF) (db1, [])).2 ∧
    (syncFilesLoop env pid (preF ++ f :: postF) (db1, [])).1 =
      (syncFilesLoop env pid
        (preF ++ (⟨f.path, ""⟩ : DiskFile) :: postF) (db1, [])).1 := by
  rw [syncFilesLoop_append, syncFilesLoop_append]
  obtain ⟨hvA, hwfA⟩ := syncFilesLoop_view env pid f.path preF db1 [] hwf1 hpreF
  have hchA : ¬(storedHash (syncFilesLoop env pid preF (db1, [])).1 pid f.path =
      some (env.hashFn f.content)) := by
    rw [storedHash_eq_of_view (hvA.trans hv1)]
    exact hchanged
  have hstep := syncOneFile_fails env pid f
    (syncFilesLoop env pid preF (db1, [])).1 e hnonempty hchA hfail
  have hstepE : syncOneFile env pid (⟨f.path, ""⟩ : DiskFile)
      (syncFilesLoop env pid preF (db1, [])).1 =
      ((syncFilesLoop env pid preF (db1, [])).1, []) := by
    rw [syncOneFile, if_pos (by rfl)]
  rw [syncFilesLoop, syncFilesLoop]
  simp only [hstep, hstepE]
  refine ⟨?_, ?_, ?_⟩
  · obtain ⟨hvP, _⟩ := syncFilesLoop_view env pid f.path postF
      (syncFilesLoop env pid preF (db1, [])).1
      ((syncFilesLoop env pid preF (db1, [])).2 ++
        [procMsg f.path, failMsg f.path e]) hwfA hpostF
    exact hvP.trans (hvA.trans hv1)
  · rw [syncFilesLoop_snd]
    apply List.mem_append_left
    apply List.mem_append_right
    exact List.mem_cons_of_mem _ (List.mem_cons_self _ _)
  · rw [List.append_nil]
    exact syncFilesLoop_fst env pid postF _ _ _

/-- C1: per-file failure isolation during file sync.  If any external
call inside one file's transaction fails (summary embedding, chunking,
or a chunk embedding), then after the whole run that file's rows and
chunks are exactly as they were before the run (rollback), the failure
is reported through the logger, and the final database equals the one
of a run in which that file carried no content at all — so the failure
neither aborts the run nor affects any other file's changes. -/
theorem syncFiles_failure_isolated (env : Env) (pid : Nat) (accepts : String → Bool)
    (db : DB) (pre post : List DiskFile) (f : DiskFile) (e : String)
    (hwf : FilesWF db)
    (hnodup : ((pre ++ f :: post).map DiskFile.path).Nodup)
    (hnonempty : ¬((jsTrim f.content == "") = true))
    (hindex : indexableFile accepts f.path = true)
    (hchanged : storedHash db pid f.path ≠ some (env.hashFn f.content))
    (hfail : fileCallsOk env f = Except.error e) :
    fileView ((syncFiles env pid (pre ++ f :: post) accepts db).1) pid f.path =
      fileView db pid f.path ∧
    failMsg f.path e ∈ (syncFiles env pid (pre ++ f :: post) accepts db).2 ∧
    (syncFiles env pid (pre ++ f :: post) accepts db).1 =
      (syncFiles env pid (pre ++ (⟨f.path, ""⟩ : DiskFile) :: post) accepts db).1 := by
  rw [List.map_append, List.map_cons] at hnodup
  obtain ⟨hnpre, hnrest, hdisj⟩ := List.nodup_append.mp hnodup
  have hfnotpre : ¬ f.path ∈ pre.map DiskFile.path := by
    intro hmem
    exact hdisj hmem (List.mem_cons_self _ _)
  have hfnotpost : ¬ f.path ∈ post.map DiskFile.path :=
    (List.nodup_cons.mp hnrest).1
  have hpreF : ∀ g ∈ pre.filter (fun g => indexableFile accepts g.path),
      g.path ≠ f.path := by
    intro g hg heq
    exact hfnotpre (heq ▸ List.mem_map_of_mem DiskFile.path
      (List.mem_of_mem_filter hg))
  have hpostF : ∀ g ∈ post.filter (fun g => indexableFile accepts g.path),
      g.path ≠ f.path := by
    intro g hg heq
    exact hfnotpost (heq ▸ List.mem_map_of_mem DiskFile.path
      (List.mem_of_mem_filter hg))
  simp only [syncFiles, List.map_append, List.map_cons, List.filter_append,
    List.filter_cons, hindex, if_true]
  have hnotdel : ¬ f.path ∈
      ((db.files.filter (fun r => r.projectId == pid)).map (fun r => r.path)).filter
        (fun p => !((pre.map (fun g => g.path) ++
          f.path :: post.map (fun g => g.path)).contains p)) := by
    intro hmem
    have hpred := (List.mem_filter.mp hmem).2
    have hcmem : f.path ∈ pre.map (fun g : DiskFile => g.path) ++
        f.path :: post.map (fun g : DiskFile => g.path) :=
      List.mem_append_right _ (List.mem_cons_self _ _)
    simp [hcmem] at hpred
  refine syncFiles_fail_loop_aux env pid
    (pre.filter (fun g => indexableFile accepts g.path))
    (post.filter (fun g => indexableFile accepts g.path)) f e db _
    ?_ ?_ hpreF hpostF hnonempty hchanged hfail
  · split
    · exact hwf
    · exact deleteFiles_wf _ _ _ hwf
  · split
    · rfl
    · exact deleteFiles_view _ _ _ _ hnotdel hwf

/-- Witness for C1: an embedding failure leaves the stale stored row
untouched and logs the failure. -/
theorem syncFiles_failure_isolated_witness :
    fileView ((syncFiles envFail 1 [(⟨"a.ts", "x"⟩ : DiskFile)] acceptAll dbStale).1)
        1 "a.ts" = fileView dbStale 1 "a.ts" ∧
    failMsg "a.ts" "boom" ∈
      (syncFiles envFail 1 [(⟨"a.ts", "x"⟩ : DiskFile)] acceptAll dbStale).2 := by
  have h := syncFiles_failure_isolated envFail 1 acceptAll dbStale [] []
    (⟨"a.ts", "x"⟩ : DiskFile) "boom" ⟨by decide, by decide⟩ (by decide) (by decide)
    (by decide) (by decide) (by rfl)
  exact ⟨h.1, h.2.1⟩


theorem insertCommit_ok (pid : Nat) (c : CommitInfo) (emb : String) (db : DB)
    (hnew : ¬ c.hash ∈ storedCommitHashes db pid) :
    insertCommit pid c emb db = Except.ok
      ({ db with
        commits := db.commits ++ [⟨db.nextCommitId, pid, c.hash, c.authorName,
          c.authorEmail, c.date, c.message, emb⟩],
        nextCommitId := db.nextCommitId + 1 }, db.nextCommitId) := by
  rw [insertCommit, if_neg]
  intro hany
  obtain ⟨r, hr, hpred⟩ := List.any_eq_true.mp hany
  simp only [Bool.and_eq_true, beq_iff_eq] at hpred
  apply hnew
  rw [storedCommitHashes]
  rw [← hpred.2]
  exact List.mem_map_of_mem _ (List.mem_filter.mpr ⟨hr, by simp [hpred.1]⟩)

theorem lookupFileId_inj {db : DB} {pid : Nat} {p1 p2 : String} {i1 i2 : Nat}
    (hnd : ((db.files.map (·.id)).Nodup)) (hne : p1 ≠ p2)
    (h1 : lookupFileId db pid p1 = some i1) (h2 : lookupFileId db pid p2 = some i2) :
    i1 ≠ i2 := by
  rw [lookupFileId] at h1 h2
  obtain ⟨r1, hf1, hr1⟩ := Option.map_eq_some'.mp h1
  obtain ⟨r2, hf2, hr2⟩ := Option.map_eq_some'.mp h2
  have hm1 := List.mem_of_find?_eq_some hf1
  have hm2 := List.mem_of_find?_eq_some hf2
  have hp1 := List.find?_some hf1
  have hp2 := List.find?_some hf2
  simp only [Bool.and_eq_true, beq_iff_eq] at hp1 hp2
  intro heq
  have hr12 : r1 = r2 := List.inj_on_of_nodup_map hnd hm1 hm2 (by rw [hr1, hr2, heq])
  apply hne
  rw [← hp1.2, ← hp2.2, hr12]

theorem linkChangedFiles_ok (pid cid : Nat) (db0 : DB)
    (hfids : ((db0.files.map (·.id)).Nodup)) :
    ∀ (changed : List (String × String)) (db : DB),
      db.files = db0.files →
      ((changed.map (·.2)).Nodup) →
      (∀ cf ∈ db.commitFiles, cf.commitId = cid →
        ∀ pr ∈ changed, ∀ fid, lookupFileId db0 pid pr.2 = some fid →
          cf.fileId ≠ fid) →
      ∃ db2, linkChangedFiles pid cid changed db = Except.ok db2 ∧
        (∀ cf ∈ db2.commitFiles, cf ∈ db.commitFiles ∨ cf.commitId = cid) := by
  intro changed
  induction changed with
  | nil =>
    intro db _ _ _
    exact ⟨db, rfl, fun cf hcf => Or.inl hcf⟩
  | cons pr rest ih =>
    intro db hfeq hnd hinv
    have hlookup : lookupFileId db pid pr.2 = lookupFileId db0 pid pr.2 := by
      rw [lookupFileId, lookupFileId, hfeq]
    rw [linkChangedFiles]
    cases hl : lookupFileId db pid pr.2 with
    | none =>
      obtain ⟨db2, hok, hmem⟩ := ih db hfeq (List.Nodup.of_cons hnd)
        (fun cf hcf hcid pr2 hpr2 => hinv cf hcf hcid pr2 (List.mem_cons_of_mem _ hpr2))
      exact ⟨db2, hok, hmem⟩
    | some fid =>
      have hl0 : lookupFileId db0 pid pr.2 = some fid := hlookup ▸ hl
      have hins : insertCommitFile cid fid pr.1 db = Except.ok
          { db with commitFiles := db.commitFiles ++ [⟨cid, fid, pr.1⟩] } := by
        rw [insertCommitFile, if_neg]
        intro hany
        obtain ⟨cf, hcf, hpred⟩ := List.any_eq_true.mp hany
        simp only [Bool.and_eq_true, beq_iff_eq] at hpred
        exact hinv cf hcf hpred.1 pr (List.mem_cons_self _ _) fid hl0 hpred.2
      have hinv2 : ∀ cf ∈ ({ db with
          commitFiles := db.commitFiles ++ [⟨cid, fid, pr.1⟩] } : DB).commitFiles,
          cf.commitId = cid →
          ∀ pr2 ∈ rest, ∀ fid2, lookupFileId db0 pid pr2.2 = some fid2 →
            cf.fileId ≠ fid2 := by
        intro cf hcf hcid pr2 hpr2 fid2 hfid2
        rcases List.mem_append.mp hcf with hcf2 | hcf2
        · exact hinv cf hcf2 hcid pr2 (List.mem_cons_of_mem _ hpr2) fid2 hfid2
        · rw [List.mem_singleton.mp hcf2]
          have hpne : pr.2 ≠ pr2.2 := by
            intro heq
            apply (List.nodup_cons.mp hnd).1
            show pr.2 ∈ List.map (fun x => x.2) rest
            rw [heq]
            exact List.mem_map_of_mem _ hpr2
          exact lookupFileId_inj hfids hpne hl0 hfid2
      obtain ⟨db2, hok, hmem⟩ :=
        ih { db with commitFiles := db.commitFiles ++ [⟨cid, fid, pr.1⟩] }
          hfeq (List.Nodup.of_cons hnd) hinv2
      refine ⟨db2, ?_, ?_⟩
      · show (match insertCommitFile cid fid pr.1 db with
          | Except.ok d2 => linkChangedFiles pid cid rest d2
          | Except.error e => Except.error e) = Except.ok db2
        rw [hins]
        exact hok
      intro cf hcf
      rcases hmem cf hcf with hcf2 | hcf2
      · rcases List.mem_append.mp hcf2 with h3 | h3
        · exact Or.inl h3
        · right
          rw [List.mem_singleton.mp h3]
      · exact Or.inr hcf2

theorem storedCommitHashes_eq_of_commits {db db2 : DB} {pid : Nat}
    {rows : List CommitRow} (h : db2.commits = db.commits ++ rows) :
    storedCommitHashes db2 pid =
      storedCommitHashes db pid ++
        ((rows.filter (fun r => r.projectId == pid)).map (·.commitHash)) := by
  rw [storedCommitHashes, storedCommitHashes, h, List.filter_append, List.map_append]

theorem commitsWF_extend {db dbx : DB} (hcwf : CommitsWF db)
    (hn : dbx.nextCommitId = db.nextCommitId + 1)
    (hc : ∀ r ∈ dbx.commits, r ∈ db.commits ∨ r.id = db.nextCommitId)
    (hcf : ∀ cf ∈ dbx.commitFiles,
      cf ∈ db.commitFiles ∨ cf.commitId = db.nextCommitId) :
    CommitsWF dbx := by
  obtain ⟨hcwf1, hcwf2⟩ := hcwf
  refine ⟨?_, ?_⟩
  · intro r hr
    rw [hn]
    rcases hc r hr with h | h
    · exact Nat.lt_succ_of_lt (hcwf1 r h)
    · rw [h]
      exact Nat.lt_succ_self _
  · intro cf hcf2
    rw [hn]
    rcases hcf cf hcf2 with h | h
    · exact Nat.lt_succ_of_lt (hcwf2 cf h)
    · rw [h]
      exact Nat.lt_succ_self _

theorem processCommit_ok (env : Env) (pid : Nat) (c : CommitInfo) (db : DB)
    (hembed : ∃ emb, env.embed c.message = Except.ok emb)
    (hnew : ¬ c.hash ∈ storedCommitHashes db pid)
    (hlink : ((parseNameStatus (env.gitShowNameStatus c.hash)).map (·.2)).Nodup)
    (hcwf : CommitsWF db)
    (hfids : ((db.files.map (·.id)).Nodup)) :
    ∃ emb db2 logs, processCommit env pid c db = (db2, logs) ∧
      db2.files = db.files ∧
      db2.nextCommitId = db.nextCommitId + 1 ∧
      db2.commits = db.commits ++ [⟨db.nextCommitId, pid, c.hash, c.authorName,
        c.authorEmail, c.date, c.message, emb⟩] ∧
      CommitsWF db2 := by
  obtain ⟨emb, hemb⟩ := hembed
  obtain ⟨hcwf1, hcwf2⟩ := hcwf
  have hic := insertCommit_ok pid c emb db hnew
  obtain ⟨dbL, hlf, hcfmem⟩ := linkChangedFiles_ok pid db.nextCommitId db hfids
    (parseNameStatus (env.gitShowNameStatus c.hash))
    { db with
      commits := db.commits ++ [⟨db.nextCommitId, pid, c.hash, c.authorName,
        c.authorEmail, c.date, c.message, emb⟩],
      nextCommitId := db.nextCommitId + 1 }
    rfl hlink
    (fun cf hcf hcid _ _ _ _ => absurd hcid (Nat.ne_of_lt (hcwf2 cf hcf)))
  have hsh := linkChangedFiles_shape pid db.nextCommitId _ _ dbL hlf
  have hf2 : dbL.files = db.files := by rw [hsh]
  have hn2 : dbL.nextCommitId = db.nextCommitId + 1 := by rw [hsh]
  have hc2 : dbL.commits = db.commits ++ [⟨db.nextCommitId, pid, c.hash, c.authorName,
      c.authorEmail, c.date, c.message, emb⟩] := by rw [hsh]
  have hcfm : ∀ cf ∈ dbL.commitFiles,
      cf ∈ db.commitFiles ∨ cf.commitId = db.nextCommitId := hcfmem
  cases hft : findTaskRef c.message with
  | some n =>
    have hbody : processCommitBody env pid c db = Except.ok
        ({ dbL with tasks := updateTasksDone env.now pid n dbL.tasks },
         ["Found reference to close task #" ++ toString n ++ "."]) := by
      rw [processCommitBody]
      simp only [hemb, hic, hlf, hft]
    refine ⟨emb, { dbL with tasks := updateTasksDone env.now pid n dbL.tasks },
      ["Found reference to close task #" ++ toString n ++ "."], ?_, ?_, ?_, ?_, ?_⟩
    · simp only [processCommit, hbody]
    · exact hf2
    · exact hn2
    · exact hc2
    · refine commitsWF_extend ⟨hcwf1, hcwf2⟩ hn2 ?_ ?_
      · intro r hr
        have hr2 : r ∈ dbL.commits := hr
        rw [hc2] at hr2
        rcases List.mem_append.mp hr2 with h | h
        · exact Or.inl h
        · right
          rw [List.mem_singleton.mp h]
      · intro cf hcf2
        exact hcfm cf hcf2
  | none =>
    have hbody : processCommitBody env pid c db = Except.ok
        ((generateTaskFromCommit env pid c dbL).1,
         (generateTaskFromCommit env pid c dbL).2) := by
      rw [processCommitBody]
      simp only [hemb, hic, hlf, hft]
    refine ⟨emb, (generateTaskFromCommit env pid c dbL).1,
      (generateTaskFromCommit env pid c dbL).2, ?_, ?_, ?_, ?_, ?_⟩
    · simp only [processCommit, hbody]
    · rw [generateTask_shape env pid c dbL]
      exact hf2
    · rw [generateTask_shape env pid c dbL]
      exact hn2
    · rw [generateTask_shape env pid c dbL]
      exact hc2
    · refine commitsWF_extend ⟨hcwf1, hcwf2⟩ ?_ ?_ ?_
      · rw [generateTask_shape env pid c dbL]
        exact hn2
      · intro r hr
        rw [generateTask_shape env pid c dbL] at hr
        have hr2 : r ∈ dbL.commits := hr
        rw [hc2] at hr2
        rcases List.mem_append.mp hr2 with h | h
        · exact Or.inl h
        · right
          rw [List.mem_singleton.mp h]
      · intro cf hcf2
        rw [generateTask_shape env pid c dbL] at hcf2
        exact hcfm cf hcf2

theorem syncGitLoop_rows (env : Env) (pid : Nat) :
    ∀ (l : List CommitInfo) (db : DB) (logs : List String),
      (∀ c ∈ l, ∃ emb, env.embed c.message = Except.ok emb) →
      (∀ c ∈ l, ((parseNameStatus (env.gitShowNameStatus c.hash)).map (·.2)).Nodup) →
      ((l.map (·.hash)).Nodup) →
      (∀ c ∈ l, ¬ c.hash ∈ storedCommitHashes db pid) →
      CommitsWF db →
      ((db.files.map (·.id)).Nodup) →
      ∃ rows,
        (syncGitLoop env pid l (db, logs)).1.commits = db.commits ++ rows ∧
        rows.map (·.commitHash) = l.map (·.hash) ∧
        (∀ r ∈ rows, r.projectId = pid ∧ db.nextCommitId ≤ r.id) ∧
        ((rows.map (·.id)).Pairwise (· < ·)) ∧
        (syncGitLoop env pid l (db, logs)).1.files = db.files ∧
        CommitsWF (syncGitLoop env pid l (db, logs)).1 := by
  intro l
  induction l with
  | nil =>
    intro db logs _ _ _ _ hwf _
    refine ⟨[], ?_, rfl, ?_, ?_, rfl, hwf⟩
    · rw [List.append_nil]
      rfl
    · intro r hr
      exact absurd hr (List.not_mem_nil r)
    · exact List.Pairwise.nil
  | cons c rest ih =>
    intro db logs hembed hlink hnd hnew hwf hfids
    obtain ⟨emb, db1, logs1, hpc, hfiles1, hnext1, hcommits1, hwf1⟩ :=
      processCommit_ok env pid c db (hembed c (List.mem_cons_self c rest))
        (hnew c (List.mem_cons_self c rest)) (hlink c (List.mem_cons_self c rest))
        hwf hfids
    have hstep : syncGitLoop env pid (c :: rest) (db, logs) =
        syncGitLoop env pid rest (db1, logs ++ logs1) := by
      show syncGitLoop env pid rest
        ((processCommit env pid c db).1, logs ++ (processCommit env pid c db).2) =
        syncGitLoop env pid rest (db1, logs ++ logs1)
      rw [hpc]
    have hstored1 : storedCommitHashes db1 pid =
        storedCommitHashes db pid ++ [c.hash] := by
      rw [storedCommitHashes_eq_of_commits hcommits1]
      simp
    have hnd1 : ((rest.map (·.hash)).Nodup) := (List.nodup_cons.mp hnd).2
    have hhead : ¬ c.hash ∈ rest.map (·.hash) := (List.nodup_cons.mp hnd).1
    have hnew1 : ∀ c2 ∈ rest, ¬ c2.hash ∈ storedCommitHashes db1 pid := by
      intro c2 hc2 hmem
      rw [hstored1] at hmem
      rcases List.mem_append.mp hmem with h | h
      · exact hnew c2 (List.mem_cons_of_mem c hc2) h
      · exact hhead (List.mem_singleton.mp h ▸ List.mem_map_of_mem (·.hash) hc2)
    have hfids1 : ((db1.files.map (·.id)).Nodup) := by
      rw [hfiles1]
      exact hfids
    obtain ⟨rows2, h1, h2, h3, h4, h5, h6⟩ :=
      ih db1 (logs ++ logs1)
        (fun c2 hc2 => hembed c2 (List.mem_cons_of_mem c hc2))
        (fun c2 hc2 => hlink c2 (List.mem_cons_of_mem c hc2))
        hnd1 hnew1 hwf1 hfids1
    refine ⟨⟨db.nextCommitId, pid, c.hash, c.authorName, c.authorEmail, c.date,
      c.message, emb⟩ :: rows2, ?_, ?_, ?_, ?_, ?_, ?_⟩
    · rw [hstep, h1, hcommits1, List.append_assoc]
      rfl
    · rw [List.map_cons, List.map_cons, h2]
    · intro r hr
      rcases List.mem_cons.mp hr with h | h
      · rw [h]
        exact ⟨rfl, Nat.le_refl _⟩
      · obtain ⟨hp, hle⟩ := h3 r h
        refine ⟨hp, ?_⟩
        rw [hnext1] at hle
        omega
    · rw [List.map_cons]
      refine List.pairwise_cons.mpr ⟨?_, h4⟩
      intro i hi
      obtain ⟨r, hr, hri⟩ := List.mem_map.mp hi
      have hle := (h3 r hr).2
      rw [hnext1] at hle
      rw [← hri]
      show db.nextCommitId < r.id
      omega
    · rw [hstep, h5, hfiles1]
    · rw [hstep]
      exact h6

theorem syncGitHistory_empty (env : Env) (pid : Nat) (log : List CommitInfo) (db : DB)
    (he : log.reverse.filter
      (fun c => !((storedCommitHashes db pid).contains c.hash)) = []) :
    syncGitHistory env pid log db = (db, ["Git history is already up-to-date."]) := by
  simp only [syncGitHistory, he]
  rfl

theorem syncGitHistory_ne (env : Env) (pid : Nat) (log : List CommitInfo) (db : DB)
    (hne : (log.reverse.filter
      (fun c => !((storedCommitHashes db pid).contains c.hash))).isEmpty = false) :
    syncGitHistory env pid log db =
      syncGitLoop env pid
        (log.reverse.filter (fun c => !((storedCommitHashes db pid).contains c.hash)))
        (db, []) := by
  simp only [syncGitHistory]
  split
  · rename_i hemp
    rw [hne] at hemp
    exact absurd hemp (by simp)
  · rfl

theorem syncGit_noNew (env : Env) (pid : Nat) (log : List CommitInfo) (db : DB)
    (h : ∀ c ∈ log, c.hash ∈ storedCommitHashes db pid) :
    (syncGitHistory env pid log db).1 = db := by
  have hf : log.reverse.filter
      (fun c => !((storedCommitHashes db pid).contains c.hash)) = [] := by
    rw [List.filter_eq_nil_iff]
    intro c hc
    simp [h c (List.mem_reverse.mp hc)]
  rw [syncGitHistory_empty env pid log db hf]

theorem newCommits_hash_nodup (log : List CommitInfo) (db : DB) (pid : Nat)
    (hlognd : ((log.map (·.hash)).Nodup)) :
    (((log.reverse.filter
      (fun c => !((storedCommitHashes db pid).contains c.hash))).map (·.hash)).Nodup) := by
  have hrev : ((log.reverse.map (·.hash)).Nodup) := by
    rw [List.map_reverse]
    exact (List.nodup_reverse).mpr hlognd
  exact List.Nodup.sublist (List.Sublist.map _ (List.filter_sublist _)) hrev

theorem newCommits_not_stored (log : List CommitInfo) (db : DB) (pid : Nat) :
    ∀ c ∈ log.reverse.filter
      (fun c => !((storedCommitHashes db pid).contains c.hash)),
      ¬ c.hash ∈ storedCommitHashes db pid := by
  intro c hcm hmem
  have hpred := (List.mem_filter.mp hcm).2
  simp [hmem] at hpred

theorem mem_newCommits (log : List CommitInfo) (db : DB) (pid : Nat) {c : CommitInfo}
    (hc : c ∈ log) (hns : ¬ c.hash ∈ storedCommitHashes db pid) :
    c ∈ log.reverse.filter
      (fun c => !((storedCommitHashes db pid).contains c.hash)) := by
  refine List.mem_filter.mpr ⟨List.mem_reverse.mpr hc, ?_⟩
  simp [hns]

theorem syncGit_run (env : Env) (pid : Nat) (log : List CommitInfo) (db : DB)
    (hembed : ∀ c ∈ log, ∃ emb, env.embed c.message = Except.ok emb)
    (hlink : ∀ c ∈ log,
      ((parseNameStatus (env.gitShowNameStatus c.hash)).map (·.2)).Nodup)
    (hlognd : ((log.map (·.hash)).Nodup))
    (hcwf : CommitsWF db)
    (hfids : ((db.files.map (·.id)).Nodup)) :
    storedCommitHashes (syncGitHistory env pid log db).1 pid =
      storedCommitHashes db pid ++
        ((log.reverse.filter
          (fun c => !((storedCommitHashes db pid).contains c.hash))).map (·.hash)) ∧
    (syncGitHistory env pid log db).1.files = db.files ∧
    CommitsWF (syncGitHistory env pid log db).1 := by
  cases hnc : (log.reverse.filter
      (fun c => !((storedCommitHashes db pid).contains c.hash))).isEmpty with
  | true =>
    have hnil : log.reverse.filter
        (fun c => !((storedCommitHashes db pid).contains c.hash)) = [] :=
      List.isEmpty_iff.mp hnc
    rw [syncGitHistory_empty env pid log db hnil, hnil]
    exact ⟨by simp, rfl, hcwf⟩
  | false =>
    rw [syncGitHistory_ne env pid log db hnc]
    obtain ⟨rows, h1, h2, h3, h4, h5, h6⟩ := syncGitLoop_rows env pid
      (log.reverse.filter (fun c => !((storedCommitHashes db pid).contains c.hash)))
      db []
      (fun c hcm => hembed c (List.mem_reverse.mp (List.mem_filter.mp hcm).1))
      (fun c hcm => hlink c (List.mem_reverse.mp (List.mem_filter.mp hcm).1))
      (newCommits_hash_nodup log db pid hlognd)
      (newCommits_not_stored log db pid)
      hcwf hfids
    refine ⟨?_, h5, h6⟩
    rw [storedCommitHashes_eq_of_commits h1]
    have hfeq : rows.filter (fun r => r.projectId == pid) = rows := by
      rw [List.filter_eq_self]
      intro r hr
      simp [(h3 r hr).1]
    rw [hfeq, h2]

theorem rowsFor_count (pid : Nat) (h : String) :
    ∀ cs : List CommitRow,
      (cs.filter (fun r => r.projectId == pid && r.commitHash == h)).length =
        List.count h ((cs.filter (fun r => r.projectId == pid)).map (·.commitHash)) := by
  intro cs
  induction cs with
  | nil => rfl
  | cons r rest ih =>
    by_cases hp : r.projectId = pid
    · by_cases hh : r.commitHash = h
      · simp [List.filter_cons, hp, hh, List.count_cons, ih]
      · simp [List.filter_cons, hp, hh, List.count_cons, ih]
    · simp [List.filter_cons, hp, ih]

theorem commitRowsFor_count (db : DB) (pid : Nat) (h : String) :
    (commitRowsFor db pid h).length = List.count h (storedCommitHashes db pid) :=
  rowsFor_count pid h db.commits

theorem syncGitLoop_order (env : Env) (pid : Nat) (l : List CommitInfo) (db : DB)
    (hembed : ∀ c ∈ l, ∃ emb, env.embed c.message = Except.ok emb)
    (hlink : ∀ c ∈ l,
      ((parseNameStatus (env.gitShowNameStatus c.hash)).map (·.2)).Nodup)
    (hnd : ((l.map (·.hash)).Nodup))
    (hnew : ∀ c ∈ l, ¬ c.hash ∈ storedCommitHashes db pid)
    (hcwf : CommitsWF db)
    (hfids : ((db.files.map (·.id)).Nodup))
    (hdl : l.Pairwise (fun x y => x.date ≤ y.date))
    (a b : CommitInfo) (ha : a ∈ l) (hb : b ∈ l) (hab : a.date < b.date) :
    ∀ ra ∈ commitRowsFor (syncGitLoop env pid l (db, [])).1 pid a.hash,
      ∀ rb ∈ commitRowsFor (syncGitLoop env pid l (db, [])).1 pid b.hash,
        ra.id < rb.id := by
  obtain ⟨rows, h1, h2, h3, h4, _, _⟩ :=
    syncGitLoop_rows env pid l db [] hembed hlink hnd hnew hcwf hfids
  intro ra hra rb hrb
  simp only [commitRowsFor] at hra hrb
  rw [h1] at hra hrb
  obtain ⟨hraMem, hraP⟩ := List.mem_filter.mp hra
  obtain ⟨hrbMem, hrbP⟩ := List.mem_filter.mp hrb
  simp only [Bool.and_eq_true, beq_iff_eq] at hraP hrbP
  have hraRows : ra ∈ rows := by
    rcases List.mem_append.mp hraMem with h | h
    · exfalso
      apply hnew a ha
      rw [storedCommitHashes]
      rw [← hraP.2]
      have hpm : ra ∈ List.filter (fun r => r.projectId == pid) db.commits :=
        List.mem_filter.mpr ⟨h, by simp [hraP.1]⟩
      exact List.mem_map_of_mem (·.commitHash) hpm
    · exact h
  have hrbRows : rb ∈ rows := by
    rcases List.mem_append.mp hrbMem with h | h
    · exfalso
      apply hnew b hb
      rw [storedCommitHashes]
      rw [← hrbP.2]
      have hpm : rb ∈ List.filter (fun r => r.projectId == pid) db.commits :=
        List.mem_filter.mpr ⟨h, by simp [hrbP.1]⟩
      exact List.mem_map_of_mem (·.commitHash) hpm
    · exact h
  obtain ⟨ia, hia, hgeta⟩ := List.getElem_of_mem hraRows
  obtain ⟨ib, hib, hgetb⟩ := List.getElem_of_mem hrbRows
  have hlen : rows.length = l.length := by
    have hcl := congrArg List.length h2
    rw [List.length_map, List.length_map] at hcl
    exact hcl
  have hia2 : ia < l.length := by
    rw [← hlen]
    exact hia
  have hib2 : ib < l.length := by
    rw [← hlen]
    exact hib
  have hqa : (rows.map (·.commitHash))[ia]? = (l.map (·.hash))[ia]? := by rw [h2]
  have hqb : (rows.map (·.commitHash))[ib]? = (l.map (·.hash))[ib]? := by rw [h2]
  rw [List.getElem?_map, List.getElem?_map, List.getElem?_eq_getElem hia,
    List.getElem?_eq_getElem hia2] at hqa
  rw [List.getElem?_map, List.getElem?_map, List.getElem?_eq_getElem hib,
    List.getElem?_eq_getElem hib2] at hqb
  simp only [Option.map_some'] at hqa hqb
  have hha : (rows[ia]).commitHash = (l[ia]).hash := Option.some.inj hqa
  have hhb : (rows[ib]).commitHash = (l[ib]).hash := Option.some.inj hqb
  have hEa : l[ia] = a := by
    apply List.inj_on_of_nodup_map hnd (List.getElem_mem hia2) ha
    rw [← hha, hgeta]
    exact hraP.2
  have hEb : l[ib] = b := by
    apply List.inj_on_of_nodup_map hnd (List.getElem_mem hib2) hb
    rw [← hhb, hgetb]
    exact hrbP.2
  have hEa2 : l[ia]? = some a := by rw [List.getElem?_eq_getElem hia2, hEa]
  have hEb2 : l[ib]? = some b := by rw [List.getElem?_eq_getElem hib2, hEb]
  have hneq : ia ≠ ib := by
    intro h
    rw [h, hEb2] at hEa2
    have hba : b = a := Option.some.inj hEa2
    rw [hba] at hab
    exact Nat.lt_irrefl _ hab
  have hnlt : ¬ ib < ia := by
    intro hlt
    have hd := (List.pairwise_iff_getElem.mp hdl) ib ia hib2 hia2 hlt
    rw [hEa, hEb] at hd
    exact absurd hab (Nat.not_lt.mpr hd)
  have hialtib : ia < ib := by omega
  have hmap_ia : ia < (rows.map (·.id)).length := by
    rw [List.length_map]
    exact hia
  have hmap_ib : ib < (rows.map (·.id)).length := by
    rw [List.length_map]
    exact hib
  have hfin := (List.pairwise_iff_getElem.mp h4) ia ib hmap_ia hmap_ib hialtib
  rw [List.getElem_map, List.getElem_map, hgeta, hgetb] at hfin
  exact hfin

/-- C3: each commit is processed at most once per project.  The git
sync filters the log against the stored hashes: when every log hash is
already stored the run leaves the database untouched, and running the
sync twice (with stored hashes and log hashes duplicate-free and every
per-commit step succeeding) leaves exactly one commits row per
(project, commit hash) for every logged commit. -/
theorem commits_processed_once (env : Env) (pid : Nat) (log : List CommitInfo) (db : DB)
    (hstored : ((storedCommitHashes db pid).Nodup))
    (hlognd : ((log.map (·.hash)).Nodup))
    (hembed : ∀ c ∈ log, ∃ emb, env.embed c.message = Except.ok emb)
    (hlink : ∀ c ∈ log,
      ((parseNameStatus (env.gitShowNameStatus c.hash)).map (·.2)).Nodup)
    (hcwf : CommitsWF db)
    (hfids : ((db.files.map (·.id)).Nodup)) :
    ((∀ c ∈ log, c.hash ∈ storedCommitHashes db pid) →
      (syncGitHistory env pid log db).1 = db) ∧
    (∀ c ∈ log,
      (commitRowsFor ((syncGitHistory env pid log
        ((syncGitHistory env pid log db).1)).1) pid c.hash).length = 1) := by
  obtain ⟨hs1, hs2, hs3⟩ := syncGit_run env pid log db hembed hlink hlognd hcwf hfids
  refine ⟨syncGit_noNew env pid log db, ?_⟩
  have hstored1nd : ((storedCommitHashes (syncGitHistory env pid log db).1 pid).Nodup) := by
    rw [hs1]
    refine List.Nodup.append hstored (newCommits_hash_nodup log db pid hlognd) ?_
    intro x hx hx2
    obtain ⟨c2, hc2, hcx⟩ := List.mem_map.mp hx2
    refine newCommits_not_stored log db pid c2 hc2 ?_
    rw [hcx]
    exact hx
  have hall1 : ∀ c2 ∈ log,
      c2.hash ∈ storedCommitHashes (syncGitHistory env pid log db).1 pid := by
    intro c2 hc2
    rw [hs1]
    by_cases hin : c2.hash ∈ storedCommitHashes db pid
    · exact List.mem_append.mpr (Or.inl hin)
    · exact List.mem_append.mpr (Or.inr
        (List.mem_map_of_mem (·.hash) (mem_newCommits log db pid hc2 hin)))
  have hrun2 : (syncGitHistory env pid log (syncGitHistory env pid log db).1).1 =
      (syncGitHistory env pid log db).1 :=
    syncGit_noNew env pid log ((syncGitHistory env pid log db).1) hall1
  intro c hc
  rw [hrun2, commitRowsFor_count]
  exact List.count_eq_one_of_mem hstored1nd (hall1 c hc)

/-- C3 witness: a two-commit log against a store with no commits; both
branches of the theorem instantiated at concrete inputs. -/
theorem commits_processed_once_witness :
    ((∀ c ∈ [commitNoRef, commitCloses12],
        c.hash ∈ storedCommitHashes dbTwoTasks 1) →
      (syncGitHistory envOK 1 [commitNoRef, commitCloses12] dbTwoTasks).1 = dbTwoTasks) ∧
    (∀ c ∈ [commitNoRef, commitCloses12],
      (commitRowsFor ((syncGitHistory envOK 1 [commitNoRef, commitCloses12]
        ((syncGitHistory envOK 1 [commitNoRef, commitCloses12] dbTwoTasks).1)).1)
        1 c.hash).length = 1) :=
  commits_processed_once envOK 1 [commitNoRef, commitCloses12] dbTwoTasks
    (by decide) (by decide)
    (fun c _ => ⟨"E" ++ c.message, rfl⟩)
    (fun c _ => by
      have hg : envOK.gitShowNameStatus c.hash = "" := rfl
      rw [hg]
      decide)
    ⟨by decide, by decide⟩ (by decide)

/-- C8: commits are inserted in chronological oldest-first order.  With
the log listed newest-first (dates non-increasing) and two new commits a
and b where a is older, every commits row stored for a has a smaller
serial id than every row stored for b: a was inserted, and its
task-reference or retrospective step run, before b. -/
theorem commits_inserted_oldest_first (env : Env) (pid : Nat) (log : List CommitInfo)
    (db : DB) (a b : CommitInfo)
    (hembed : ∀ c ∈ log, ∃ emb, env.embed c.message = Except.ok emb)
    (hlink : ∀ c ∈ log,
      ((parseNameStatus (env.gitShowNameStatus c.hash)).map (·.2)).Nodup)
    (hlognd : ((log.map (·.hash)).Nodup))
    (hcwf : CommitsWF db)
    (hfids : ((db.files.map (·.id)).Nodup))
    (hdates : List.Pairwise (fun x y => y.date ≤ x.date) log)
    (ha : a ∈ log) (hb : b ∈ log)
    (hanew : ¬ a.hash ∈ storedCommitHashes db pid)
    (hbnew : ¬ b.hash ∈ storedCommitHashes db pid)
    (hab : a.date < b.date) :
    ∀ ra ∈ commitRowsFor (syncGitHistory env pid log db).1 pid a.hash,
      ∀ rb ∈ commitRowsFor (syncGitHistory env pid log db).1 pid b.hash,
        ra.id < rb.id := by
  have hamem := mem_newCommits log db pid ha hanew
  have hbmem := mem_newCommits log db pid hb hbnew
  have hne : (log.reverse.filter
      (fun c => !((storedCommitHashes db pid).contains c.hash))).isEmpty = false := by
    cases hl : log.reverse.filter
        (fun c => !((storedCommitHashes db pid).contains c.hash)) with
    | nil =>
      rw [hl] at hamem
      exact absurd hamem (List.not_mem_nil a)
    | cons x xs => rfl
  intro ra hra rb hrb
  rw [syncGitHistory_ne env pid log db hne] at hra hrb
  exact syncGitLoop_order env pid
    (log.reverse.filter (fun c => !((storedCommitHashes db pid).contains c.hash)))
    db
    (fun c hcm => hembed c (List.mem_reverse.mp (List.mem_filter.mp hcm).1))
    (fun c hcm => hlink c (List.mem_reverse.mp (List.mem_filter.mp hcm).1))
    (newCommits_hash_nodup log db pid hlognd)
    (newCommits_not_stored log db pid)
    hcwf hfids
    (List.Pairwise.sublist (List.filter_sublist _)
      ((List.pairwise_reverse).mpr hdates))
    a b hamem hbmem hab ra hra rb hrb

/-- C8 witness: a newest-first log of two fresh commits; every row the
run stores for the older commit has a smaller id than every row stored
for the newer one. -/
theorem commits_inserted_oldest_first_witness :
    (⟨1, 1, "deadbee1", "ann", "a@x", 7, "closes #1 and fixes #2",
        "Ecloses #1 and fixes #2"⟩ : CommitRow) ∈
      commitRowsFor
        (syncGitHistory envOK 1 [commitNoRef, commitCloses12] dbTwoTasks).1 1
        commitCloses12.hash ∧
    (⟨2, 1, "cafebab2", "ann", "a@x", 8, "tweak readme",
        "Etweak readme"⟩ : CommitRow) ∈
      commitRowsFor
        (syncGitHistory envOK 1 [commitNoRef, commitCloses12] dbTwoTasks).1 1
        commitNoRef.hash ∧
    (⟨1, 1, "deadbee1", "ann", "a@x", 7, "closes #1 and fixes #2",
        "Ecloses #1 and fixes #2"⟩ : CommitRow).id <
      (⟨2, 1, "cafebab2", "ann", "a@x", 8, "tweak readme",
        "Etweak readme"⟩ : CommitRow).id :=
  ⟨by decide, by decide,
    commits_inserted_oldest_first envOK 1 [commitNoRef, commitCloses12] dbTwoTasks
      commitCloses12 commitNoRef
      (fun c _ => ⟨"E" ++ c.message, rfl⟩)
      (fun c _ => by
        have hg : envOK.gitShowNameStatus c.hash = "" := rfl
        rw [hg]
        decide)
      (by decide)
      ⟨by decide, by decide⟩
      (by decide)
      (by decide)
      (by decide) (by decide)
      (by decide) (by decide)
      (by decide)
      ⟨1, 1, "deadbee1", "ann", "a@x", 7, "closes #1 and fixes #2",
        "Ecloses #1 and fixes #2"⟩ (by decide)
      ⟨2, 1, "cafebab2", "ann", "a@x", 8, "tweak readme",
        "Etweak readme"⟩ (by decide)⟩
